import Mathlib

/-!
# A verification development for `webpack.js`

`webpack.js` is a small bundler: `genBundle` reads an entry file, follows its
`import` declarations recursively (`getGraph`), and returns the text of an
immediately-invoked function whose argument is a table from path strings to
module factories and whose body is a tiny `require`.

The embedding follows the source function by function.

* `dirname`, `join` model the two functions the source takes from Node's
  `path` module (POSIX flavour).
* `Env` holds the collaborators the source calls and does not define: the
  file system (`fs.readFileSync`) and Babel (`parser.parse`, `traverse`,
  `transformFromAstSync`).
* `getModule`, `getGraph`, `genBundle` are the three functions of the source.
  The recursion of `getGraph` has no bound in the source, so the embedding
  takes a fuel argument: `none` means the fuel ran out.
* `traverseGraph`, `traverseBundle` replay the same traversal and record what the text cannot
  show directly: the `getModule` calls made, and the table entries as
  structured data.  `getGraph_eq_render` ties them to the text.
* `require` is the runtime function of the emitted text, over a small heap.
-/

namespace Webpack

/-! ## Node's `path.dirname` and `path.join` (POSIX) -/

/-- Scan of `dirname`: the characters of the path at indices `len-1 .. 1`, last
first, with the `matchedSlash` flag.  Returns the characters that precede the
slash ending the directory part (still reversed), or `none` when the loop ends
with `end === -1`. -/
def dirnameScan : List Char → Bool → Option (List Char)
  | [], _ => none
  | c :: rest, matchedSlash =>
    if c = '/' then
      if !matchedSlash then some rest else dirnameScan rest matchedSlash
    else dirnameScan rest false

/-- Node's `path.posix.dirname`. -/
def dirname (path : String) : String :=
  match path.data with
  | [] => "."
  | c0 :: tl =>
    let hasRoot := decide (c0 = '/')
    match dirnameScan tl.reverse true with
    | none => if hasRoot then "/" else "."
    | some before =>
      if hasRoot && before.isEmpty then "//" else String.mk (c0 :: before.reverse)

/-- The segments of a path between its slashes. -/
def splitSlash : List Char → List (List Char)
  | [] => [[]]
  | c :: cs =>
    if c = '/' then [] :: splitSlash cs
    else
      match splitSlash cs with
      | [] => [[c]]
      | s :: ss => (c :: s) :: ss

/-- Node's `normalizeString`, segment by segment; `res` is the stack of kept
segments, last first.  An empty segment and `.` are dropped; `..` removes the
last kept segment unless there is none or it is `..` itself, in which case it is
kept when `allowAboveRoot` and dropped otherwise. -/
def normalizeSegs (allowAboveRoot : Bool) : List (List Char) → List (List Char) → List (List Char)
  | [], res => res
  | seg :: segs, res =>
    if seg = [] ∨ seg = ['.'] then normalizeSegs allowAboveRoot segs res
    else if seg = ['.', '.'] then
      match res with
      | top :: below =>
        if top = ['.', '.'] then
          normalizeSegs allowAboveRoot segs (if allowAboveRoot then seg :: res else res)
        else normalizeSegs allowAboveRoot segs below
      | [] => normalizeSegs allowAboveRoot segs (if allowAboveRoot then [seg] else [])
    else normalizeSegs allowAboveRoot segs (seg :: res)

/-- Segments joined with `/`. -/
def joinSegs : List (List Char) → List Char
  | [] => []
  | [s] => s
  | s :: ss => s ++ '/' :: joinSegs ss

/-- Node's `path.posix.normalize`. -/
def normalize (path : String) : String :=
  match path.data with
  | [] => "."
  | c0 :: tl =>
    let isAbsolute := decide (c0 = '/')
    let trailingSeparator := decide ((c0 :: tl).getLast? = some '/')
    let res := joinSegs (normalizeSegs (!isAbsolute) (splitSlash (c0 :: tl)) []).reverse
    if res.isEmpty then
      if isAbsolute then "/" else if trailingSeparator then "./" else "."
    else
      let res := if trailingSeparator then res ++ ['/'] else res
      String.mk (if isAbsolute then '/' :: res else res)

/-- Node's `path.posix.join` on two arguments: the non-empty arguments are
joined with `/` and the result is normalized. -/
def join (a b : String) : String :=
  if a.data = [] then
    if b.data = [] then "." else normalize b
  else if b.data = [] then normalize a
  else normalize (a ++ "/" ++ b)

/-! ## The collaborators -/

/-- An exception thrown by a collaborator: its `name` and its `message`. -/
structure Error where
  name : String
  message : String
deriving DecidableEq, Repr

/-- What the source calls and does not define.  `readFileSync` is
`fs.readFileSync(path, 'utf-8')`; `parse` is `parser.parse` with
`sourceType: 'module'`; `importSources` is the list `traverse` builds from the
`ImportDeclaration` nodes, in visiting order; `transform` is the `.code` of
`transformFromAstSync` with `@babel/preset-env`. -/
structure Env where
  Ast : Type
  readFileSync : String → Except Error String
  parse : String → Except Error Ast
  importSources : Ast → List String
  transform : Ast → Except Error String

/-- The record `getModule` returns. -/
structure Module where
  path : String
  dependencies : List String
  code : String
deriving DecidableEq, Repr

/-! ## The three functions of the source -/

/-- The source's `getModule`: read, parse, collect the import sources, wrap the
transformed code in a factory function. -/
def getModule (env : Env) (path : String) : Except Error Module :=
  match env.readFileSync path with
  | .error e => .error e
  | .ok content =>
    match env.parse content with
    | .error e => .error e
    | .ok ast =>
      let dependencies := env.importSources ast
      match env.transform ast with
      | .error e => .error e
      | .ok es5 =>
        let code := "function (require, module, exports) \x7b\n    " ++ es5 ++ "\n  \x7d"
        .ok { path := path, dependencies := dependencies, code := code }

/-- The callback of the `reduce` in `getGraph`, given the recursive call
`recur`.  An exception or an exhausted fuel in the accumulator is passed on. -/
def graphStep (env : Env) (recur : Module → String → Option (Except Error String))
    (module : Module) (acc : Option (Except Error String)) (depPath : String) :
    Option (Except Error String) :=
  match acc with
  | some (.ok mappingCodeToPath) =>
    let depAbspath := join (dirname module.path) depPath
    match getModule env depAbspath with
    | .error e => some (.error e)
    | .ok depModule =>
      match recur depModule depPath with
      | some (.ok depMappingCodeToPath) => some (.ok (mappingCodeToPath ++ depMappingCodeToPath))
      | some (.error e) => some (.error e)
      | none => none
  | other => other

/-- The source's `getGraph`: the entry of `module` under the key `path`,
followed by what the recursive calls return for its dependencies. -/
def getGraph (env : Env) : Nat → Module → String → Option (Except Error String)
  | 0, _, _ => none
  | fuel + 1, module, path =>
    let initialMappingCodeToPath := "'" ++ path ++ "': " ++ module.code ++ ","
    module.dependencies.foldl (graphStep env (getGraph env fuel) module)
      (some (.ok initialMappingCodeToPath))

/-- The source's `genBundle`. -/
def genBundle (env : Env) (fuel : Nat) (entryPath : String) : Option (Except Error String) :=
  match getModule env entryPath with
  | .error e => some (.error e)
  | .ok entryModule =>
    match getGraph env fuel entryModule entryPath with
    | none => none
    | some (.error e) => some (.error e)
    | some (.ok table) =>
      let graph := "\x7b" ++ table ++ "\x7d"
      some (.ok ("(function(modules)\x7b\n    function require(path)\x7b\n      const module= \x7bexports:\x7b\x7d\x7d\n      modules[path](require,module,module.exports)\n      return module.exports\n    \x7d\n    require('" ++ entryPath ++ "')\n  \x7d)(" ++ graph ++ ")"))

/-- Lines 84 to 88: the script calls `genBundle('./index.js')` and only then
writes the result to `./dist/bundle.js`.  The value is the list of files
written (creating the directory is left out). -/
def bundleScript (env : Env) (fuel : Nat) : Option (Except Error (List (String × String))) :=
  match genBundle env fuel "./index.js" with
  | none => none
  | some (.error e) => some (.error e)
  | some (.ok bundle) => some (.ok [("./dist/bundle.js", bundle)])

/-! ## The traversal, with its calls and its entries recorded -/

/-- One entry of the emitted table: the key written between the quotes and the
module whose code follows the colon. -/
structure Entry where
  key : String
  module : Module
deriving DecidableEq, Repr

/-- What a traversal did: the arguments of its `getModule` calls, in call
order, and its result (`none`: the fuel ran out). -/
structure Trace where
  calls : List String
  result : Option (Except Error (List Entry))

/-- The callback of the `reduce`, as `graphStep`, recording the call of
`getModule` and keeping the entries apart. -/
def traceStep (env : Env) (recur : Module → String → Trace) (module : Module)
    (acc : Trace) (depPath : String) : Trace :=
  match acc.result with
  | some (.ok entries) =>
    let depAbspath := join (dirname module.path) depPath
    match getModule env depAbspath with
    | .error e => ⟨acc.calls ++ [depAbspath], some (.error e)⟩
    | .ok depModule =>
      let sub := recur depModule depPath
      match sub.result with
      | some (.ok depEntries) =>
        ⟨acc.calls ++ depAbspath :: sub.calls, some (.ok (entries ++ depEntries))⟩
      | some (.error e) => ⟨acc.calls ++ depAbspath :: sub.calls, some (.error e)⟩
      | none => ⟨acc.calls ++ depAbspath :: sub.calls, none⟩
  | _ => acc

/-- The traversal of `getGraph`. -/
def traverseGraph (env : Env) : Nat → Module → String → Trace
  | 0, _, _ => ⟨[], none⟩
  | fuel + 1, module, path =>
    module.dependencies.foldl (traceStep env (traverseGraph env fuel) module)
      ⟨[], some (.ok [⟨path, module⟩])⟩

/-- The traversal of `genBundle`: the call for the entry, then `getGraph`. -/
def traverseBundle (env : Env) (fuel : Nat) (entryPath : String) : Trace :=
  match getModule env entryPath with
  | .error e => ⟨[entryPath], some (.error e)⟩
  | .ok entryModule =>
    let t := traverseGraph env fuel entryModule entryPath
    ⟨entryPath :: t.calls, t.result⟩

/-- The text `getGraph` writes for one entry. -/
def renderEntry (e : Entry) : String :=
  "'" ++ e.key ++ "': " ++ e.module.code ++ ","

/-- The text of a list of entries, in order. -/
def renderEntries : List Entry → String
  | [] => ""
  | e :: es => renderEntry e ++ renderEntries es

/-- The text `genBundle` returns around a table text. -/
def bundleText (entryPath table : String) : String :=
  "(function(modules)\x7b\n    function require(path)\x7b\n      const module= \x7bexports:\x7b\x7d\x7d\n      modules[path](require,module,module.exports)\n      return module.exports\n    \x7d\n    require('" ++ entryPath ++ "')\n  \x7d)(" ++ ("\x7b" ++ table ++ "\x7d") ++ ")"

/-- The text of a traversal's result. -/
def Trace.text (t : Trace) : Option (Except Error String) :=
  match t.result with
  | none => none
  | some (.error e) => some (.error e)
  | some (.ok entries) => some (.ok (renderEntries entries))

/-- The keys of a table, in the order written. -/
def keysOf (entries : List Entry) : List String := entries.map (fun e => e.key)

/-- The paths the modules of a table were read from, in the order written. -/
def pathsOf (entries : List Entry) : List String := entries.map (fun e => e.module.path)

/-- The path a module resolves one of its specifiers to (line 71). -/
def resolveDep (importer : Module) (depPath : String) : String :=
  join (dirname importer.path) depPath

/-- Own-property lookup in an object literal: of the entries written under a
key, the last one wins. -/
def ownProperty {α : Type} : List (String × α) → String → Option α
  | [], _ => none
  | (k, v) :: rest, key =>
    match ownProperty rest key with
    | some w => some w
    | none => if k = key then some v else none

/-- The module found under a key among the entries as the builder wrote them,
key string against key string.  The property names the engine reads from the
emitted text are those of `parsedEntries`; the two agree for keys without
quote, backslash or line terminator. -/
def lookupModule (entries : List Entry) (key : String) : Option Module :=
  ownProperty (entries.map (fun e => (e.key, e.module))) key

/-- The files the traversal can get to: the entry, and every file an import of
a file it can get to resolves to. -/
inductive Reach (env : Env) (entryPath : String) : String → Prop
  | entry : Reach env entryPath entryPath
  | dep {p : String} {m : Module} {s : String} :
      Reach env entryPath p → getModule env p = .ok m → s ∈ m.dependencies →
      Reach env entryPath (join (dirname p) s)

/-- How many entries of a table hold a module read from `p`. -/
def entriesFor (p : String) (entries : List Entry) : Nat :=
  entries.countP (fun e => e.module.path = p)

/-- How many import declarations of one module resolve to `p`. -/
def importsOf (p : String) (m : Module) : Nat :=
  m.dependencies.countP (fun s => resolveDep m s = p)

/-- How many import declarations of the modules of a table resolve to `p`. -/
def importsInto (p : String) (entries : List Entry) : Nat :=
  (entries.map (fun e => importsOf p e.module)).sum

/-! ## File trees to run the functions on -/

/-- A file of a test tree: its normalized path, its text, the sources of
its import declarations and its transformed code. -/
structure SourceFile where
  path : String
  content : String
  imports : List String
  es5 : String
deriving DecidableEq, Repr

/-- The collaborators over a list of files.  A path names the file it
normalizes to; a path that names no file fails as Node's `readFileSync` does,
with the path as it was given. -/
def nodeEnv (files : List SourceFile) : Env where
  Ast := SourceFile
  readFileSync path :=
    match files.find? (fun f => f.path == normalize path) with
    | some f => .ok f.content
    | none => .error ⟨"Error", "ENOENT: no such file or directory, open '" ++ path ++ "'"⟩
  parse content :=
    match files.find? (fun f => f.content == content) with
    | some f => .ok f
    | none => .error ⟨"SyntaxError", "Unexpected token"⟩
  importSources ast := ast.imports
  transform ast := .ok ast.es5

/-- Whether a text occurs inside another. -/
def mentions (text part : String) : Bool :=
  text.data.tails.any (fun t => part.data.isPrefixOf t)

/-- `index.js` imports `a.js` and `b.js`, which both import `c.js`. -/
def diamondFiles : List SourceFile :=
  [ ⟨"index.js", "import './a.js'; import './b.js'", ["./a.js", "./b.js"], "require('./a.js'); require('./b.js');"⟩,
    ⟨"a.js", "import './c.js'; export default 1", ["./c.js"], "require('./c.js'); exports.default = 1;"⟩,
    ⟨"b.js", "import './c.js'; export default 2", ["./c.js"], "require('./c.js'); exports.default = 2;"⟩,
    ⟨"c.js", "export default 3", [], "exports.default = 3;"⟩ ]

/-- `index.js` imports itself. -/
def selfImportFiles : List SourceFile :=
  [ ⟨"index.js", "import './index.js'", ["./index.js"], "require('./index.js');"⟩ ]

/-- `index.js` imports `sub/main.js`, which imports `./index.js`: from there
that is `sub/index.js`. -/
def shadowFiles : List SourceFile :=
  [ ⟨"index.js", "import './sub/main.js'", ["./sub/main.js"], "require('./sub/main.js');"⟩,
    ⟨"sub/main.js", "import './index.js'", ["./index.js"], "require('./index.js');"⟩,
    ⟨"sub/index.js", "export default 0", [], "exports.default = 0;"⟩ ]

/-- `index.js` imports `a.js`, which imports nothing. -/
def pairFiles : List SourceFile :=
  [ ⟨"index.js", "import './a.js'", ["./a.js"], "require('./a.js');"⟩,
    ⟨"a.js", "export default 2", [], "exports.default = 2;"⟩ ]

/-- `index.js` imports `missing.js`, which is not there. -/
def missingFiles : List SourceFile :=
  [ ⟨"index.js", "import './missing.js'", ["./missing.js"], "require('./missing.js');"⟩ ]

/-! ## The runtime of the emitted text

The function `require` of lines 28 to 32, over a heap of objects.  A factory
is the behaviour of a table entry's function: what it does to the heap and
which paths it requires, given the module object and the exports value it is
called with. -/

/-- The values the model tells apart; an object is named by its reference, a
number. -/
inductive Value where
  | undefined
  | object (r : Nat)
  | number (n : Int)
  | string (s : String)
deriving DecidableEq, Repr

/-- The heap: the next free reference and the property writes, latest first. -/
structure Heap where
  next : Nat
  props : List (Nat × String × Value)
deriving DecidableEq, Repr

/-- Reads a property: the latest write, `undefined` when there is none. -/
def Heap.get (h : Heap) (r : Nat) (field : String) : Value :=
  match h.props.find? (fun w => w.1 == r && w.2.1 == field) with
  | some w => w.2.2
  | none => .undefined

/-- Writes a property. -/
def Heap.set (h : Heap) (r : Nat) (field : String) (v : Value) : Heap :=
  { h with props := (r, field, v) :: h.props }

/-- Allocates an object without properties. -/
def Heap.alloc (h : Heap) : Nat × Heap :=
  (h.next, { h with next := h.next + 1 })

/-- What is thrown: the `TypeError` of calling a non-function, or a value a
factory throws. -/
inductive Thrown where
  | typeError (message : String)
  | value (v : Value)
deriving DecidableEq, Repr

/-- How an evaluation ends. -/
inductive Completion (α : Type) where
  | normal (a : α)
  | thrown (t : Thrown)
  | outOfFuel
deriving DecidableEq, Repr

/-- The behaviour of a function body: it returns, throws, allocates, reads or
writes a property, or calls the `require` it was given and goes on with the
value returned. -/
inductive Prog where
  | ret : Prog
  | throw (v : Value) : Prog
  | alloc (k : Nat → Prog) : Prog
  | get (r : Nat) (field : String) (k : Value → Prog) : Prog
  | set (r : Nat) (field : String) (v : Value) (k : Prog) : Prog
  | require (path : String) (k : Value → Prog) : Prog

/-- A factory: the body's behaviour for the arguments `module` and `exports`
(the first argument, `require`, is what `Prog.require` calls). -/
abbrev Factory := Nat → Value → Prog

/-- One call of a factory by `require`: the key looked up and the two objects
passed. -/
structure Invocation where
  key : String
  module : Nat
  exports : Value
deriving DecidableEq, Repr

/-- The state of the runtime: the heap, and the factory calls made so far. -/
structure RtState where
  heap : Heap
  invoked : List Invocation
deriving DecidableEq, Repr

/-- The argument `modules` of the emitted function: the entries of the object
literal in the order written, and the functions the object inherits from
`Object.prototype` (`none` for a name that is not inherited or whose inherited
value is not a function). -/
structure Runtime where
  modules : List (String × Factory)
  inherited : String → Option Factory

/-- The value `modules[path]` when it is a function: an own property first,
then an inherited one. -/
def Runtime.lookup (rt : Runtime) (path : String) : Option Factory :=
  match ownProperty rt.modules path with
  | some f => some f
  | none => rt.inherited path

/-- Runs a behaviour, `req` being the `require` it was given. -/
def runProg (req : String → RtState → Completion (Value × RtState)) :
    Prog → RtState → Completion RtState
  | .ret, s => .normal s
  | .throw v, _ => .thrown (.value v)
  | .alloc k, s => runProg req (k s.heap.alloc.1) { s with heap := s.heap.alloc.2 }
  | .get r field k, s => runProg req (k (s.heap.get r field)) s
  | .set r field v k, s => runProg req k { s with heap := s.heap.set r field v }
  | .require path k, s =>
    match req path s with
    | .normal (v, s1) => runProg req (k v) s1
    | .thrown t => .thrown t
    | .outOfFuel => .outOfFuel

/-- The state in which `require(path)` calls the factory: `\x7bexports:\x7b\x7d\x7d` is
built (the inner object first) and the call is recorded. -/
def enterRequire (path : String) (s : RtState) : RtState :=
  let exportsRef := s.heap.alloc.1
  let moduleRef := s.heap.alloc.2.alloc.1
  { heap := (s.heap.alloc.2.alloc.2).set moduleRef "exports" (.object exportsRef),
    invoked := s.invoked ++ [⟨path, moduleRef, .object exportsRef⟩] }

/-- The emitted `require`:
`const module = \x7bexports:\x7b\x7d\x7d; modules[path](require, module, module.exports); return module.exports`.
The fuel bounds the depth of nested calls. -/
def require (rt : Runtime) : Nat → String → RtState → Completion (Value × RtState)
  | 0, _, _ => .outOfFuel
  | fuel + 1, path, s =>
    let moduleRef := s.heap.alloc.2.alloc.1
    let s0 := enterRequire path s
    match rt.lookup path with
    | none => .thrown (.typeError "modules[path] is not a function")
    | some factory =>
      match runProg (require rt fuel) (factory moduleRef (s0.heap.get moduleRef "exports")) s0 with
      | .normal s1 => .normal (s1.heap.get moduleRef "exports", s1)
      | .thrown t => .thrown t
      | .outOfFuel => .outOfFuel

/-- The calls `require(path)` made `n` times in a row: the values returned. -/
def requireTimes (rt : Runtime) (fuel : Nat) (path : String) :
    Nat → RtState → Completion (List Value × RtState)
  | 0, s => .normal ([], s)
  | n + 1, s =>
    match require rt fuel path s with
    | .normal (v, s1) =>
      match requireTimes rt fuel path n s1 with
      | .normal (vs, s2) => .normal (v :: vs, s2)
      | .thrown t => .thrown t
      | .outOfFuel => .outOfFuel
    | .thrown t => .thrown t
    | .outOfFuel => .outOfFuel

/-- The state the emitted function starts in. -/
def initialState : RtState := ⟨⟨0, []⟩, []⟩

/-- The functions an object literal inherits from `Object.prototype`, as
behaviours when called with `(require, module, module.exports)`: two of them
throw (their second argument is no function), the others return without
touching the module. -/
def objectPrototype (name : String) : Option Factory :=
  if name ∈ ["constructor", "hasOwnProperty", "isPrototypeOf", "propertyIsEnumerable",
      "toLocaleString", "toString", "valueOf", "__lookupGetter__", "__lookupSetter__"] then
    some (fun _ _ => .ret)
  else if name = "__defineGetter__" then
    some (fun _ _ => .throw (.string "TypeError: Object.prototype.__defineGetter__: Expecting function"))
  else if name = "__defineSetter__" then
    some (fun _ _ => .throw (.string "TypeError: Object.prototype.__defineSetter__: Expecting function"))
  else none

/-- A factory that sets a property of the exports object it is given. -/
def plainFactory : Factory := fun _ exports =>
  match exports with
  | .object e => .set e "default" (.number 3) .ret
  | _ => .ret

/-- A factory that rebinds `module.exports` to an object that exists already
(`module.exports = shared`). -/
def rebindingFactory (shared : Nat) : Factory := fun module _ =>
  .set module "exports" (.object shared) .ret

/-! ## What a successful traversal leaves behind -/

/-- The part of a successful traversal that one dependency contributes: the
module read for it, the calls made below it and the entries written for it. -/
structure SubRun where
  module : Module
  calls : List String
  entries : List Entry

/-- What holds of the calls of a traversal of `module` under `key` that
succeeded and of the entries `rest` it wrote after the module's own: the calls
are the paths of those entries; each of them holds the module `getModule`
returns for its path; every import of an emitted module has its entry, under
the raw specifier, holding the module read from the resolved path; every entry
but the first comes from such an import; and the entries per file are counted
by the imports per file. -/
structure GraphInv (env : Env) (module : Module) (key : String) (calls : List String)
    (rest : List Entry) : Prop where
  calls_eq : calls = pathsOf rest
  genuine : ∀ e ∈ rest, getModule env e.module.path = .ok e.module
  closed : ∀ e ∈ (⟨key, module⟩ : Entry) :: rest, ∀ s ∈ e.module.dependencies,
    ∃ e1 ∈ rest, e1.key = s ∧ e1.module.path = resolveDep e.module s
  origin : ∀ e1 ∈ rest, ∃ e ∈ (⟨key, module⟩ : Entry) :: rest, ∃ s ∈ e.module.dependencies,
    e1.key = s ∧ e1.module.path = resolveDep e.module s
  counted : ∀ p, entriesFor p rest = importsInto p (⟨key, module⟩ :: rest)

/-! ## The tables of the test trees -/

/-- The factory text `getModule` builds around a transformed body. -/
def factoryCode (es5 : String) : String :=
  "function (require, module, exports) \x7b\n    " ++ es5 ++ "\n  \x7d"

/-- The module of `c.js` in the diamond tree. -/
def diamondC : Module := ⟨"c.js", [], factoryCode "exports.default = 3;"⟩

/-- The entries of the diamond tree's table, in the order written. -/
def diamondEntries : List Entry :=
  [ ⟨"./index.js", ⟨"./index.js", ["./a.js", "./b.js"], factoryCode "require('./a.js'); require('./b.js');"⟩⟩,
    ⟨"./a.js", ⟨"a.js", ["./c.js"], factoryCode "require('./c.js'); exports.default = 1;"⟩⟩,
    ⟨"./c.js", diamondC⟩,
    ⟨"./b.js", ⟨"b.js", ["./c.js"], factoryCode "require('./c.js'); exports.default = 2;"⟩⟩,
    ⟨"./c.js", diamondC⟩ ]

/-- The entry module of the pair tree. -/
def pairIndex : Module := ⟨"./index.js", ["./a.js"], factoryCode "require('./a.js');"⟩

/-- The module of `a.js` in the pair tree. -/
def pairA : Module := ⟨"a.js", [], factoryCode "exports.default = 2;"⟩

/-- The entries of the pair tree's table. -/
def pairEntries : List Entry := [⟨"./index.js", pairIndex⟩, ⟨"./a.js", pairA⟩]

/-- The entry module of the shadow tree. -/
def shadowIndex : Module := ⟨"./index.js", ["./sub/main.js"], factoryCode "require('./sub/main.js');"⟩

/-- The module of `sub/main.js` in the shadow tree. -/
def shadowMain : Module := ⟨"sub/main.js", ["./index.js"], factoryCode "require('./index.js');"⟩

/-- The module of `sub/index.js` in the shadow tree. -/
def shadowSubIndex : Module := ⟨"sub/index.js", [], factoryCode "exports.default = 0;"⟩

/-- The entries of the shadow tree's table. -/
def shadowEntries : List Entry :=
  [⟨"./index.js", shadowIndex⟩, ⟨"./sub/main.js", shadowMain⟩, ⟨"./index.js", shadowSubIndex⟩]

/-- The entry module of the self-importing tree, as read from `./index.js`. -/
def selfIndex : Module := ⟨"./index.js", ["./index.js"], factoryCode "require('./index.js');"⟩

/-- The same file as read from `index.js`, the path its own import resolves to. -/
def selfAgain : Module := ⟨"index.js", ["./index.js"], factoryCode "require('./index.js');"⟩

/-- The entry module of the tree with a missing import. -/
def missingIndex : Module := ⟨"./index.js", ["./missing.js"], factoryCode "require('./missing.js');"⟩

/-- The error Node raises for reading `missing.js`. -/
def missingError : Error := ⟨"Error", "ENOENT: no such file or directory, open 'missing.js'"⟩

/-- A rank on the paths of the pair tree that falls along its import. -/
def pairRank (p : String) : Nat := if p = "./index.js" then 1 else 0

/-- The artifact of the diamond tree. -/
def diamondArtifact : String := bundleText "./index.js" (renderEntries diamondEntries)

/-- The artifact of the pair tree. -/
def pairArtifact : String := bundleText "./index.js" (renderEntries pairEntries)

/-- A table with the one key `./c.js`, over the standard prototype. -/
def plainRuntime : Runtime := ⟨[("./c.js", plainFactory)], objectPrototype⟩

/-- The same table with a factory that rebinds `module.exports` to object 0. -/
def rebindingRuntime : Runtime := ⟨[("./c.js", rebindingFactory 0)], objectPrototype⟩

/-- A state in which one object, object 0, exists already. -/
def sharedState : RtState := ⟨⟨1, []⟩, []⟩

/-- What a call of `require` may do to the state: it adds factory calls, each on
a module object that did not exist before, and never frees a reference. -/
def Grows (s s1 : RtState) : Prop :=
  ∃ more, s1.invoked = s.invoked ++ more ∧ (∀ r ∈ more, s.heap.next ≤ r.module)
    ∧ s.heap.next ≤ s1.heap.next

/-- The state after three calls of `require('./c.js')` from the initial state,
over `plainRuntime`. -/
def plainAfterThree : RtState :=
  ⟨⟨6, [(4, "default", .number 3), (5, "exports", .object 4),
        (2, "default", .number 3), (3, "exports", .object 2),
        (0, "default", .number 3), (1, "exports", .object 0)]⟩,
    [⟨"./c.js", 1, .object 0⟩, ⟨"./c.js", 3, .object 2⟩, ⟨"./c.js", 5, .object 4⟩]⟩

/-! ## The text of the artifact, in parts -/

/-- Texts put one after the other. -/
def concatAll : List String → String
  | [] => ""
  | t :: ts => t ++ concatAll ts

/-- The text of the artifact before the entry path: the opening of the
function, the definition of `require`, and the start of the call that begins
evaluation. -/
def runtimeHead : String :=
  "(function(modules)\x7b\n    function require(path)\x7b\n      const module= \x7bexports:\x7b\x7d\x7d\n      modules[path](require,module,module.exports)\n      return module.exports\n    \x7d\n    require('"

/-- The text of the artifact between the entry path and the table: the end of
the call, the end of the function, and the opening of its argument list. -/
def runtimeTail : String := "')\n  \x7d)("

/-- How many times a text occurs inside another. -/
def countOccurrences (text part : String) : Nat :=
  (text.data.tails.filter (fun t => part.data.isPrefixOf t)).length

/-- `index.js` imports `./math/index.js`, which imports `./add.js`. -/
def mathFiles : List SourceFile :=
  [ ⟨"index.js", "import './math/index.js'", ["./math/index.js"], "require('./math/index.js');"⟩,
    ⟨"math/index.js", "import './add.js'", ["./add.js"], "require('./add.js');"⟩,
    ⟨"math/add.js", "export default 1", [], "exports.default = 1;"⟩ ]

/-- The entries of the math tree's table. -/
def mathEntries : List Entry :=
  [ ⟨"./index.js", ⟨"./index.js", ["./math/index.js"], factoryCode "require('./math/index.js');"⟩⟩,
    ⟨"./math/index.js", ⟨"math/index.js", ["./add.js"], factoryCode "require('./add.js');"⟩⟩,
    ⟨"./add.js", ⟨"math/add.js", [], factoryCode "exports.default = 1;"⟩⟩ ]

/-- The artifact of the math tree. -/
def mathArtifact : String := bundleText "./index.js" (renderEntries mathEntries)

/-! ## Reading a string literal back

ECMAScript's single-quoted `StringLiteral`: the characters up to the next
quote that no backslash escapes; a backslash starts an escape sequence or a
line continuation; a line feed or a carriage return ends the literal with an
error. -/

/-- The single quote. -/
def quoteChar : Char := Char.ofNat 39

/-- The backslash. -/
def backslashChar : Char := Char.ofNat 92

/-- The four line terminators: line feed, carriage return, line separator and
paragraph separator. -/
def lineTerminators : List Char := [Char.ofNat 10, Char.ofNat 13, Char.ofNat 8232, Char.ofNat 8233]

/-- The characters a one-character escape sequence stands for, given the
character after the backslash; a line terminator there is a line continuation
and stands for nothing (the reader takes a carriage return and a line feed
that follows it as one).  Hexadecimal, Unicode and octal escapes are not
modelled (`none`). -/
def escapeValue (c : Char) : Option (List Char) :=
  if c ∈ lineTerminators then some []
  else if c = 'n' then some [Char.ofNat 10]
  else if c = 'r' then some [Char.ofNat 13]
  else if c = 't' then some [Char.ofNat 9]
  else if c = 'b' then some [Char.ofNat 8]
  else if c = 'v' then some [Char.ofNat 11]
  else if c = 'f' then some [Char.ofNat 12]
  else if c = 'x' ∨ c = 'u' ∨ c.isDigit then none
  else some [c]

/-- Where the reader of a string literal stands: between characters, right
after a backslash, or right after a backslash and a carriage return (a line
feed that follows belongs to the same line continuation). -/
inductive ReadState where
  | plain
  | escaped
  | afterReturn
deriving DecidableEq, Repr

/-- The characters of a string literal after its opening quote: the value, and
what follows the closing quote. -/
def readStringChars : ReadState → List Char → Option (List Char × List Char)
  | _, [] => none
  | .escaped, e :: cs =>
    if e = Char.ofNat 13 then readStringChars .afterReturn cs
    else
      match escapeValue e, readStringChars .plain cs with
      | some v, some (value, after) => some (v ++ value, after)
      | _, _ => none
  | state, c :: cs =>
    if state = .afterReturn ∧ c = Char.ofNat 10 then readStringChars .plain cs
    else if c = quoteChar then some ([], cs)
    else if c = Char.ofNat 10 ∨ c = Char.ofNat 13 then none
    else if c = backslashChar then readStringChars .escaped cs
    else
      match readStringChars .plain cs with
      | some (value, after) => some (c :: value, after)
      | none => none

/-- A single-quoted string literal at the start of a text: its value, and what
follows it. -/
def readSingleQuoted (text : List Char) : Option (String × List Char) :=
  match text with
  | [] => none
  | c :: cs =>
    if c = quoteChar then
      match readStringChars .plain cs with
      | some (value, after) => some (String.mk value, after)
      | none => none
    else none

/-- The text of the artifact up to the argument of the one call of `require`. -/
def callPrefix : String :=
  "(function(modules)\x7b\n    function require(path)\x7b\n      const module= \x7bexports:\x7b\x7d\x7d\n      modules[path](require,module,module.exports)\n      return module.exports\n    \x7d\n    require("

/-- An import chain from a file: the positions of the import declarations
followed, one module after the other, and the path the chain ends at.  The
empty chain ends at the file itself. -/
inductive ImportChain (env : Env) : String → List Nat → String → Prop
  | here (p : String) : ImportChain env p [] p
  | step {p q : String} {m : Module} {s : String} {i : Nat} {c : List Nat} :
      getModule env p = .ok m → m.dependencies[i]? = some s →
      ImportChain env (join (dirname p) s) c q → ImportChain env p (i :: c) q

/-! ## The file a path denotes -/

/-- Node's `path.posix.resolve(cwd, dir, specifier)` for an absolute `cwd`: the
absolute path of the file that an import of `specifier`, written in a file of
the directory `dir`, denotes when the process runs in `cwd`.  The arguments are
taken from the right up to the first absolute one, and the whole is normalized
below the root. -/
def pathResolve (cwd dir specifier : String) : String :=
  let joined :=
    if specifier.data.head? = some '/' then specifier
    else if dir.data.head? = some '/' then dir ++ "/" ++ specifier
    else cwd ++ "/" ++ (dir ++ "/" ++ specifier)
  String.mk ('/' :: joinSegs (normalizeSegs false (splitSlash joined.data) []).reverse)

/-- A path made of names only: between its slashes there is no empty segment,
no `.` and no `..`.  Such a path is relative, stays below the directory it
starts from and does not end in a slash. -/
def PlainRelative (q : String) : Prop :=
  ∀ seg ∈ splitSlash q.data, seg ≠ [] ∧ seg ≠ ['.'] ∧ seg ≠ ['.', '.']

instance (q : String) : Decidable (PlainRelative q) := by
  unfold PlainRelative
  infer_instance

/-! ## The table as the engine reads it -/

/-- A key that is read back as it was written and makes an ordinary property:
it has no single quote, backslash or line terminator, and is not `__proto__`. -/
def PlainKey (k : String) : Prop :=
  (∀ c ∈ k.data, c ≠ quoteChar ∧ c ≠ backslashChar ∧ c ∉ lineTerminators) ∧ k ≠ "__proto__"

instance (k : String) : Decidable (PlainKey k) := by
  unfold PlainKey
  infer_instance

/-- The property name the engine reads for an entry: the value of the string
literal the entry's text starts with, when that literal ends where the colon of
the entry stands; `none` when it ends elsewhere or not at all (the text is then
not the entry that was meant, or no program). -/
def parsedKey (e : Entry) : Option String :=
  match readSingleQuoted (renderEntry e).data with
  | some (k, rest) => if rest = (": " ++ e.module.code ++ ",").data then some k else none
  | none => none

/-- The entries with the property names the engine reads in place of the keys
written; `none` when one of them is not read. -/
def parsedEntries : List Entry → Option (List (String × Module))
  | [] => some []
  | e :: es =>
    match parsedKey e, parsedEntries es with
    | some k, some rest => some ((k, e.module) :: rest)
    | _, _ => none

/-- The own properties of the object the table text denotes, in the order
written.  An entry named `__proto__` sets the prototype and makes no property;
two of them are a syntax error (`none`). -/
def ownProperties (entries : List Entry) : Option (List (String × Module)) :=
  match parsedEntries entries with
  | none => none
  | some table =>
    if 1 < (table.map Prod.fst).count "__proto__" then none
    else some (table.filter (fun kv => kv.1 ≠ "__proto__"))

/-- The module `modules[key]` finds among the own properties of the table the
engine reads (the last of a repeated name wins). -/
def lookupParsed (entries : List Entry) (key : String) : Option Module :=
  match ownProperties entries with
  | none => none
  | some table => ownProperty table key

/-- `index.js` imports `./a\b.js`, a specifier with a backslash; the file
`a\b.js` exists. -/
def escapeFiles : List SourceFile :=
  [ ⟨"index.js", "import './a\\\\b.js'", ["./a\\b.js"], "require('./a\\\\b.js');"⟩,
    ⟨"a\\b.js", "export default 1", [], "exports.default = 1;"⟩ ]

/-- The entry module of the tree with the backslash. -/
def escapeIndex : Module := ⟨"./index.js", ["./a\\b.js"], factoryCode "require('./a\\\\b.js');"⟩

/-- The module of `a\b.js`. -/
def escapeDep : Module := ⟨"a\\b.js", [], factoryCode "exports.default = 1;"⟩

/-- The entries of that tree's table, with the keys as written. -/
def escapeEntries : List Entry := [⟨"./index.js", escapeIndex⟩, ⟨"./a\\b.js", escapeDep⟩]

/-! # Theorems -/

/-! ## The module record -/

theorem getModule_path {env : Env} {p : String} {m : Module} (h : getModule env p = .ok m) :
    m.path = p := by
  unfold getModule at h
  split at h
  · cases h
  · split at h
    · cases h
    · split at h
      · cases h
      · cases h; rfl

/-! ## The text and the recorded traversal agree -/

theorem renderEntries_append (a b : List Entry) :
    renderEntries (a ++ b) = renderEntries a ++ renderEntries b := by
  induction a with
  | nil => simp [renderEntries]
  | cons e es ih => simp [renderEntries, ih, String.append_assoc]

theorem graphStep_text (env : Env) (recurS : Module → String → Option (Except Error String))
    (recurT : Module → String → Trace) (h : ∀ m k, recurS m k = (recurT m k).text)
    (module : Module) (acc : Trace) (d : String) :
    graphStep env recurS module acc.text d = (traceStep env recurT module acc d).text := by
  rcases acc with ⟨calls, result⟩
  rcases result with _ | (e | es)
  · simp [graphStep, traceStep, Trace.text]
  · simp [graphStep, traceStep, Trace.text]
  · simp only [graphStep, traceStep, Trace.text]
    cases hm : getModule env (join (dirname module.path) d) with
    | error e => simp
    | ok md =>
      simp only [h md d, Trace.text]
      rcases hr : (recurT md d).result with _ | (e | es1)
      · simp
      · simp
      · simp [renderEntries_append]

theorem foldl_graphStep_text (env : Env) (recurS : Module → String → Option (Except Error String))
    (recurT : Module → String → Trace) (h : ∀ m k, recurS m k = (recurT m k).text)
    (module : Module) (deps : List String) (acc : Trace) :
    deps.foldl (graphStep env recurS module) acc.text
      = (deps.foldl (traceStep env recurT module) acc).text := by
  induction deps generalizing acc with
  | nil => rfl
  | cons d ds ih =>
    simp only [List.foldl_cons]
    rw [graphStep_text env recurS recurT h module acc d]
    exact ih _

/-- The text `getGraph` returns is the rendering of the recorded entries, and
it fails or runs out of fuel exactly when the recorded traversal does. -/
theorem getGraph_eq_render (env : Env) (fuel : Nat) (module : Module) (path : String) :
    getGraph env fuel module path = (traverseGraph env fuel module path).text := by
  induction fuel generalizing module path with
  | zero => rfl
  | succ n ih =>
    simp only [getGraph, traverseGraph]
    have h0 : (some (.ok ("'" ++ path ++ "': " ++ module.code ++ ",")) :
        Option (Except Error String))
        = (⟨[], some (.ok [⟨path, module⟩])⟩ : Trace).text := by
      simp [Trace.text, renderEntries, renderEntry]
    rw [h0]
    exact foldl_graphStep_text env _ _ ih module _ _

/-- The result of `genBundle`, from the recorded traversal. -/
theorem genBundle_eq_render (env : Env) (fuel : Nat) (entryPath : String) :
    genBundle env fuel entryPath
      = match (traverseBundle env fuel entryPath).result with
        | none => none
        | some (.error e) => some (.error e)
        | some (.ok entries) => some (.ok (bundleText entryPath (renderEntries entries))) := by
  unfold genBundle traverseBundle
  cases hm : getModule env entryPath with
  | error e => rfl
  | ok m =>
    simp only [getGraph_eq_render, Trace.text]
    rcases (traverseGraph env fuel m entryPath).result with _ | (e | es)
    · rfl
    · rfl
    · simp [bundleText]

/-! ## Taking a successful traversal apart -/

theorem foldl_traceStep_stuck (env : Env) (recur : Module → String → Trace) (module : Module)
    (deps : List String) (acc : Trace) (h : ∀ es, acc.result ≠ some (.ok es)) :
    deps.foldl (traceStep env recur module) acc = acc := by
  induction deps with
  | nil => rfl
  | cons d ds ih =>
    simp only [List.foldl_cons]
    have hs : traceStep env recur module acc d = acc := by
      unfold traceStep
      split
      · rename_i es hes; exact absurd hes (h es)
      · rfl
    rw [hs]; exact ih

theorem foldl_traceStep_ok (env : Env) (recur : Module → String → Trace) (module : Module)
    (deps : List String) (c0 : List String) (es0 : List Entry) (calls : List String)
    (es : List Entry)
    (h : deps.foldl (traceStep env recur module) ⟨c0, some (.ok es0)⟩ = ⟨calls, some (.ok es)⟩) :
    ∃ subs : List SubRun,
      List.Forall₂ (fun d x => getModule env (resolveDep module d) = .ok x.module
        ∧ recur x.module d = ⟨x.calls, some (.ok x.entries)⟩) deps subs
      ∧ es = es0 ++ subs.flatMap (fun x => x.entries)
      ∧ calls = c0 ++ subs.flatMap (fun x => x.module.path :: x.calls) := by
  induction deps generalizing c0 es0 with
  | nil =>
    simp only [List.foldl_nil, Trace.mk.injEq, Option.some.injEq, Except.ok.injEq] at h
    exact ⟨[], List.Forall₂.nil, by simp [h.2], by simp [h.1]⟩
  | cons d ds ih =>
    simp only [List.foldl_cons] at h
    cases hm : getModule env (join (dirname module.path) d) with
    | error e =>
      have hstep : traceStep env recur module ⟨c0, some (.ok es0)⟩ d
          = ⟨c0 ++ [join (dirname module.path) d], some (.error e)⟩ := by
        simp [traceStep, hm]
      rw [hstep, foldl_traceStep_stuck env recur module ds _ (by simp)] at h
      simp at h
    | ok md =>
      rcases hr : recur md d with ⟨sc, sr⟩
      rcases sr with _ | (e | ses)
      · have hstep : traceStep env recur module ⟨c0, some (.ok es0)⟩ d
            = ⟨c0 ++ join (dirname module.path) d :: sc, none⟩ := by
          simp [traceStep, hm, hr]
        rw [hstep, foldl_traceStep_stuck env recur module ds _ (by simp)] at h
        simp at h
      · have hstep : traceStep env recur module ⟨c0, some (.ok es0)⟩ d
            = ⟨c0 ++ join (dirname module.path) d :: sc, some (.error e)⟩ := by
          simp [traceStep, hm, hr]
        rw [hstep, foldl_traceStep_stuck env recur module ds _ (by simp)] at h
        simp at h
      · have hstep : traceStep env recur module ⟨c0, some (.ok es0)⟩ d
            = ⟨c0 ++ join (dirname module.path) d :: sc, some (.ok (es0 ++ ses))⟩ := by
          simp [traceStep, hm, hr]
        rw [hstep] at h
        obtain ⟨subs, hsubs, hes, hcalls⟩ := ih _ _ h
        refine ⟨⟨md, sc, ses⟩ :: subs, List.Forall₂.cons ⟨hm, hr⟩ hsubs, ?_, ?_⟩
        · simp [hes, List.flatMap_cons]
        · have hp : md.path = join (dirname module.path) d := getModule_path hm
          simp [hcalls, List.flatMap_cons, hp]

theorem foldl_traceStep_build (env : Env) (recur : Module → String → Trace) (module : Module)
    (deps : List String)
    (h : ∀ d ∈ deps, ∃ md, getModule env (resolveDep module d) = .ok md
      ∧ ∃ es, (recur md d).result = some (.ok es))
    (acc : Trace) (es0 : List Entry) (hacc : acc.result = some (.ok es0)) :
    ∃ es, (deps.foldl (traceStep env recur module) acc).result = some (.ok es) := by
  induction deps generalizing acc es0 with
  | nil => exact ⟨es0, hacc⟩
  | cons d ds ih =>
    obtain ⟨md, hm, es1, hr⟩ := h d (List.mem_cons_self _ _)
    simp only [List.foldl_cons]
    refine ih (fun d1 hd1 => h d1 (List.mem_cons_of_mem _ hd1)) _ (es0 ++ es1) ?_
    simp only [resolveDep] at hm
    simp [traceStep, hacc, hm, hr]

/-- Induction over the traversals that succeed: a property of (module, key,
calls, entries) that passes from the dependencies of a module to the module
holds of every successful traversal. -/
theorem traverseGraph_induct (env : Env) (P : Module → String → List String → List Entry → Prop)
    (node : ∀ (m : Module) (k : String) (subs : List SubRun),
      List.Forall₂ (fun d x => getModule env (resolveDep m d) = .ok x.module
        ∧ P x.module d x.calls x.entries) m.dependencies subs →
      P m k (subs.flatMap (fun x => x.module.path :: x.calls))
        (⟨k, m⟩ :: subs.flatMap (fun x => x.entries)))
    (fuel : Nat) (m : Module) (k : String) (calls : List String) (es : List Entry)
    (h : traverseGraph env fuel m k = ⟨calls, some (.ok es)⟩) : P m k calls es := by
  induction fuel generalizing m k calls es with
  | zero => simp [traverseGraph] at h
  | succ n ih =>
    simp only [traverseGraph] at h
    obtain ⟨subs, hsubs, hes, hcalls⟩ := foldl_traceStep_ok env _ m _ _ _ _ _ h
    have hes1 : es = ⟨k, m⟩ :: subs.flatMap (fun x => x.entries) := by simpa using hes
    have hcalls1 : calls = subs.flatMap (fun x => x.module.path :: x.calls) := by
      simpa using hcalls
    rw [hes1, hcalls1]
    refine node m k subs (hsubs.imp ?_)
    rintro d x ⟨hm, hr⟩
    exact ⟨hm, ih _ _ _ _ hr⟩

/-! ## The invariant of the emitted table -/

theorem forall₂_of_mem_left {α β : Type} {R : α → β → Prop} {l1 : List α} {l2 : List β}
    (h : List.Forall₂ R l1 l2) : ∀ a ∈ l1, ∃ b ∈ l2, R a b := by
  induction h with
  | nil => intro a ha; cases ha
  | cons hab _ ih =>
    intro a ha
    rcases List.mem_cons.mp ha with rfl | ha
    · exact ⟨_, List.mem_cons_self _ _, hab⟩
    · obtain ⟨b, hb, hr⟩ := ih a ha
      exact ⟨b, List.mem_cons_of_mem _ hb, hr⟩

theorem forall₂_of_mem_right {α β : Type} {R : α → β → Prop} {l1 : List α} {l2 : List β}
    (h : List.Forall₂ R l1 l2) : ∀ b ∈ l2, ∃ a ∈ l1, R a b := by
  induction h with
  | nil => intro b hb; cases hb
  | cons hab _ ih =>
    intro b hb
    rcases List.mem_cons.mp hb with rfl | hb
    · exact ⟨_, List.mem_cons_self _ _, hab⟩
    · obtain ⟨a, ha, hr⟩ := ih b hb
      exact ⟨a, List.mem_cons_of_mem _ ha, hr⟩

theorem flatMap_eq_of_mem {α β : Type} (l : List α) (f g : α → List β)
    (h : ∀ x ∈ l, f x = g x) : l.flatMap f = l.flatMap g := by
  induction l with
  | nil => rfl
  | cons a l ih =>
    simp only [List.flatMap_cons]
    rw [h a (List.mem_cons_self _ _), ih (fun x hx => h x (List.mem_cons_of_mem _ hx))]

theorem entriesFor_cons (p : String) (e : Entry) (es : List Entry) :
    entriesFor p (e :: es) = (if e.module.path = p then 1 else 0) + entriesFor p es := by
  simp [entriesFor, List.countP_cons, Nat.add_comm]

theorem entriesFor_append (p : String) (a b : List Entry) :
    entriesFor p (a ++ b) = entriesFor p a + entriesFor p b := by
  simp [entriesFor, List.countP_append]

theorem importsInto_cons (p : String) (e : Entry) (es : List Entry) :
    importsInto p (e :: es) = importsOf p e.module + importsInto p es := by
  simp [importsInto]

theorem importsInto_append (p : String) (a b : List Entry) :
    importsInto p (a ++ b) = importsInto p a + importsInto p b := by
  simp [importsInto, List.sum_append]

theorem entriesFor_flatMap (p : String) (m : Module) (deps : List String) (subs : List SubRun)
    (h : List.Forall₂ (fun d x => entriesFor p x.entries
      = (if resolveDep m d = p then 1 else 0) + importsInto p x.entries) deps subs) :
    entriesFor p (subs.flatMap (fun x => x.entries))
      = deps.countP (fun s => resolveDep m s = p)
        + importsInto p (subs.flatMap (fun x => x.entries)) := by
  induction h with
  | nil => simp [entriesFor, importsInto]
  | cons hab _ ih =>
    rename_i d x ds xs
    simp only [List.flatMap_cons, entriesFor_append, importsInto_append, List.countP_cons, ih, hab]
    simp only [decide_eq_true_eq]
    omega

/-- The invariant passes from the dependencies of a module to the module. -/
theorem graphInv_node (env : Env) (m : Module) (k : String) (subs : List SubRun)
    (h : List.Forall₂ (fun d x => getModule env (resolveDep m d) = .ok x.module
      ∧ ∃ rest, x.entries = ⟨d, x.module⟩ :: rest ∧ GraphInv env x.module d x.calls rest)
      m.dependencies subs) :
    GraphInv env m k (subs.flatMap (fun x => x.module.path :: x.calls))
      (subs.flatMap (fun x => x.entries)) := by
  have hsub : ∀ x ∈ subs, ∃ d ∈ m.dependencies, getModule env (resolveDep m d) = .ok x.module
      ∧ ∃ rest, x.entries = ⟨d, x.module⟩ :: rest ∧ GraphInv env x.module d x.calls rest :=
    forall₂_of_mem_right h
  have hdep : ∀ d ∈ m.dependencies, ∃ x ∈ subs, getModule env (resolveDep m d) = .ok x.module
      ∧ ∃ rest, x.entries = ⟨d, x.module⟩ :: rest ∧ GraphInv env x.module d x.calls rest :=
    forall₂_of_mem_left h
  have hin : ∀ x ∈ subs, ∀ e ∈ x.entries, e ∈ subs.flatMap (fun x => x.entries) :=
    fun x hx e he => List.mem_flatMap.mpr ⟨x, hx, he⟩
  refine ⟨?_, ?_, ?_, ?_, ?_⟩
  · -- the calls are the paths of the entries
    unfold pathsOf
    rw [List.map_flatMap]
    apply flatMap_eq_of_mem
    intro x hx
    obtain ⟨d, _, _, rest, hes, inv⟩ := hsub x hx
    rw [hes, inv.calls_eq]; rfl
  · -- every entry holds the module read from its path
    intro e he
    obtain ⟨x, hx, hex⟩ := List.mem_flatMap.mp he
    obtain ⟨d, _, hm, rest, hes, inv⟩ := hsub x hx
    rw [hes] at hex
    rcases List.mem_cons.mp hex with rfl | hex
    · simpa [getModule_path hm] using hm
    · exact inv.genuine e hex
  · -- every import has its entry
    intro e he s hs
    rcases List.mem_cons.mp he with rfl | he
    · obtain ⟨x, hx, hm, rest, hes, _⟩ := hdep s hs
      refine ⟨⟨s, x.module⟩, hin x hx _ (by rw [hes]; exact List.mem_cons_self _ _), rfl, ?_⟩
      exact getModule_path hm
    · obtain ⟨x, hx, hex⟩ := List.mem_flatMap.mp he
      obtain ⟨d, _, _, rest, hes, inv⟩ := hsub x hx
      rw [hes] at hex
      obtain ⟨e1, he1, hk, hp⟩ := inv.closed e hex s hs
      exact ⟨e1, hin x hx e1 (by rw [hes]; exact List.mem_cons_of_mem _ he1), hk, hp⟩
  · -- every entry comes from an import
    intro e1 he1
    obtain ⟨x, hx, hex⟩ := List.mem_flatMap.mp he1
    obtain ⟨d, hd, hm, rest, hes, inv⟩ := hsub x hx
    rw [hes] at hex
    rcases List.mem_cons.mp hex with rfl | hex
    · exact ⟨⟨k, m⟩, List.mem_cons_self _ _, d, hd, rfl, getModule_path hm⟩
    · obtain ⟨e, he, s, hs, hk, hp⟩ := inv.origin e1 hex
      exact ⟨e, List.mem_cons_of_mem _ (hin x hx e (by rw [hes]; exact he)), s, hs, hk, hp⟩
  · -- the entries per file are counted by the imports per file
    intro p
    rw [importsInto_cons]
    have hc := entriesFor_flatMap p m m.dependencies subs (h.imp (by
      rintro d x ⟨hm, rest, hes, inv⟩
      rw [hes, entriesFor_cons, inv.counted p]
      simp [getModule_path hm]))
    rw [hc]; rfl

/-- Every traversal of `getGraph` that succeeds wrote the module's own entry
first and satisfies the invariant. -/
theorem traverseGraph_inv (env : Env) (fuel : Nat) (m : Module) (k : String)
    (calls : List String) (es : List Entry)
    (h : traverseGraph env fuel m k = ⟨calls, some (.ok es)⟩) :
    ∃ rest, es = ⟨k, m⟩ :: rest ∧ GraphInv env m k calls rest :=
  traverseGraph_induct env
    (fun m k calls es => ∃ rest, es = ⟨k, m⟩ :: rest ∧ GraphInv env m k calls rest)
    (fun m k subs hs => ⟨_, rfl, graphInv_node env m k subs hs⟩) fuel m k calls es h

/-- The same for `genBundle`: when it returns an artifact, the artifact is the
rendering of recorded entries, the first of them the entry module under the
entry path, and the invariant holds. -/
theorem genBundle_inv (env : Env) (fuel : Nat) (entryPath artifact : String)
    (h : genBundle env fuel entryPath = some (.ok artifact)) :
    ∃ (m : Module) (rest : List Entry),
      getModule env entryPath = .ok m
      ∧ traverseBundle env fuel entryPath
          = ⟨entryPath :: pathsOf rest, some (.ok (⟨entryPath, m⟩ :: rest))⟩
      ∧ artifact = bundleText entryPath (renderEntries (⟨entryPath, m⟩ :: rest))
      ∧ GraphInv env m entryPath (pathsOf rest) rest := by
  rw [genBundle_eq_render] at h
  unfold traverseBundle at h ⊢
  cases hm : getModule env entryPath with
  | error e => simp [hm] at h
  | ok m =>
    simp only [hm] at h ⊢
    rcases ht : traverseGraph env fuel m entryPath with ⟨calls, result⟩
    rw [ht] at h
    rcases result with _ | (e | es)
    · simp at h
    · simp at h
    · obtain ⟨rest, hes, inv⟩ := traverseGraph_inv env fuel m entryPath calls es ht
      have hc := inv.calls_eq
      subst hes; subst hc
      simp only [Option.some.injEq, Except.ok.injEq] at h
      exact ⟨m, rest, rfl, rfl, h.symm, inv⟩

/-! ## The files the traversal gets to -/

theorem reach_mem_calls (env : Env) (entryPath : String) (m0 : Module) (rest : List Entry)
    (hm0 : getModule env entryPath = .ok m0) (inv : GraphInv env m0 entryPath (pathsOf rest) rest)
    (p : String) (hp : Reach env entryPath p) : p ∈ entryPath :: pathsOf rest := by
  induction hp with
  | entry => exact List.mem_cons_self _ _
  | dep hreach hm hs ih =>
    rename_i q m s
    -- the entry that holds the module read from `q`
    have hq : ∃ e ∈ (⟨entryPath, m0⟩ : Entry) :: rest, e.module = m := by
      rcases List.mem_cons.mp ih with rfl | hmem
      · refine ⟨⟨q, m0⟩, List.mem_cons_self _ _, ?_⟩
        rw [hm0] at hm; cases hm; rfl
      · obtain ⟨e, he, hpath⟩ := List.mem_map.mp hmem
        refine ⟨e, List.mem_cons_of_mem _ he, ?_⟩
        have hg := inv.genuine e he
        rw [hpath, hm] at hg; cases hg; rfl
    obtain ⟨e, he, rfl⟩ := hq
    obtain ⟨e1, he1, _, hpath⟩ := inv.closed e he s hs
    have hq2 : e.module.path = q := getModule_path hm
    refine List.mem_cons_of_mem _ (List.mem_map.mpr ⟨e1, he1, ?_⟩)
    rw [hpath, resolveDep, hq2]

/-! ## A failed call ends the traversal -/

theorem traceStep_fatal (env : Env) (recur : Module → String → Trace)
    (hrec : ∀ m k, ∀ p ∈ (recur m k).calls, ∀ e, getModule env p = .error e →
      (recur m k).result = some (.error e))
    (module : Module) (acc : Trace) (d : String)
    (hacc : ∀ p ∈ acc.calls, ∀ e, getModule env p = .error e → acc.result = some (.error e)) :
    ∀ p ∈ (traceStep env recur module acc d).calls, ∀ e, getModule env p = .error e →
      (traceStep env recur module acc d).result = some (.error e) := by
  rcases acc with ⟨calls, result⟩
  rcases result with _ | (e0 | es)
  · simpa [traceStep] using hacc
  · simpa [traceStep] using hacc
  · have hclean : ∀ p ∈ calls, ∀ e, getModule env p ≠ .error e := by
      intro p hp e he
      have := hacc p hp e he
      simp at this
    intro p hp e he
    simp only [traceStep] at hp ⊢
    cases hm : getModule env (join (dirname module.path) d) with
    | error e1 =>
      simp only [hm] at hp ⊢
      rcases List.mem_append.mp hp with h1 | h1
      · exact absurd he (hclean p h1 e)
      · simp only [List.mem_singleton] at h1
        rw [h1, hm] at he; cases he; rfl
    | ok md =>
      simp only [hm] at hp ⊢
      have hsub := hrec md d
      have hp1 : p ∈ calls ∨ p = join (dirname module.path) d ∨ p ∈ (recur md d).calls := by
        rcases hr : (recur md d).result with _ | (e2 | es2) <;> simp only [hr] at hp <;>
          simpa [List.mem_append] using hp
      rcases hp1 with h1 | h1 | h1
      · exact absurd he (hclean p h1 e)
      · rw [h1, hm] at he; cases he
      · have := hsub p h1 e he
        simp [this]

theorem foldl_traceStep_fatal (env : Env) (recur : Module → String → Trace)
    (hrec : ∀ m k, ∀ p ∈ (recur m k).calls, ∀ e, getModule env p = .error e →
      (recur m k).result = some (.error e))
    (module : Module) (deps : List String) (acc : Trace)
    (hacc : ∀ p ∈ acc.calls, ∀ e, getModule env p = .error e → acc.result = some (.error e)) :
    ∀ p ∈ (deps.foldl (traceStep env recur module) acc).calls, ∀ e,
      getModule env p = .error e →
      (deps.foldl (traceStep env recur module) acc).result = some (.error e) := by
  induction deps generalizing acc with
  | nil => exact hacc
  | cons d ds ih =>
    simp only [List.foldl_cons]
    exact ih _ (traceStep_fatal env recur hrec module acc d hacc)

theorem traverseGraph_fatal (env : Env) (fuel : Nat) (m : Module) (k : String) :
    ∀ p ∈ (traverseGraph env fuel m k).calls, ∀ e, getModule env p = .error e →
      (traverseGraph env fuel m k).result = some (.error e) := by
  induction fuel generalizing m k with
  | zero => intro p hp; simp [traverseGraph] at hp
  | succ n ih =>
    simp only [traverseGraph]
    exact foldl_traceStep_fatal env _ ih m _ _ (by intro p hp; simp at hp)

theorem traverseBundle_fatal (env : Env) (fuel : Nat) (entryPath : String) :
    ∀ p ∈ (traverseBundle env fuel entryPath).calls, ∀ e, getModule env p = .error e →
      (traverseBundle env fuel entryPath).result = some (.error e) := by
  intro p hp e he
  unfold traverseBundle at hp ⊢
  cases hm : getModule env entryPath with
  | error e1 =>
    simp only [hm] at hp ⊢
    simp only [List.mem_singleton] at hp
    rw [hp, hm] at he; cases he; rfl
  | ok m =>
    simp only [hm] at hp ⊢
    rcases List.mem_cons.mp hp with h1 | h1
    · rw [h1, hm] at he; cases he
    · exact traverseGraph_fatal env fuel m entryPath p h1 e he

/-! ## Termination on trees without a cycle -/

theorem traverseGraph_returns (env : Env) (entryPath : String) (rank : String → Nat)
    (hok : ∀ p, Reach env entryPath p → ∃ m, getModule env p = .ok m)
    (hrank : ∀ p m s, Reach env entryPath p → getModule env p = .ok m → s ∈ m.dependencies →
      rank (join (dirname p) s) < rank p)
    (fuel : Nat) (p : String) (m : Module) (k : String) (hp : Reach env entryPath p)
    (hm : getModule env p = .ok m) (hfuel : rank p < fuel) :
    ∃ es, (traverseGraph env fuel m k).result = some (.ok es) := by
  induction fuel generalizing p m k with
  | zero => exact absurd hfuel (Nat.not_lt_zero _)
  | succ n ih =>
    simp only [traverseGraph]
    have hpath : m.path = p := getModule_path hm
    refine foldl_traceStep_build env _ m _ ?_ _ [⟨k, m⟩] rfl
    intro d hd
    have hreach : Reach env entryPath (join (dirname p) d) := Reach.dep hp hm hd
    obtain ⟨md, hmd⟩ := hok _ hreach
    refine ⟨md, by rw [resolveDep, hpath]; exact hmd, ?_⟩
    exact ih _ md d hreach hmd (by have := hrank p m d hp hm hd; omega)

/-! ## The test trees, evaluated -/

theorem diamond_run : traverseBundle (nodeEnv diamondFiles) 3 "./index.js"
    = ⟨["./index.js", "a.js", "c.js", "b.js", "c.js"], some (.ok diamondEntries)⟩ := rfl

theorem diamond_bundle :
    genBundle (nodeEnv diamondFiles) 3 "./index.js" = some (.ok diamondArtifact) := by
  rw [genBundle_eq_render, diamond_run]; rfl

theorem pair_run : traverseBundle (nodeEnv pairFiles) 2 "./index.js"
    = ⟨["./index.js", "a.js"], some (.ok pairEntries)⟩ := rfl

theorem pair_bundle :
    genBundle (nodeEnv pairFiles) 2 "./index.js" = some (.ok pairArtifact) := by
  rw [genBundle_eq_render, pair_run]; rfl

theorem pair_reach (p : String) (h : Reach (nodeEnv pairFiles) "./index.js" p) :
    p = "./index.js" ∨ p = "a.js" := by
  induction h with
  | entry => exact Or.inl rfl
  | dep _ hm hs ih =>
    rename_i q m s
    rcases ih with rfl | rfl
    · have h1 : getModule (nodeEnv pairFiles) "./index.js" = .ok pairIndex := rfl
      rw [h1] at hm; cases hm
      simp only [pairIndex, List.mem_singleton] at hs
      subst hs
      exact Or.inr (by decide)
    · have h1 : getModule (nodeEnv pairFiles) "a.js" = .ok pairA := rfl
      rw [h1] at hm; cases hm
      simp [pairA] at hs

theorem self_again_diverges (fuel : Nat) (k : String) :
    getGraph (nodeEnv selfImportFiles) fuel selfAgain k = none := by
  induction fuel generalizing k with
  | zero => rfl
  | succ n ih =>
    have h1 : getModule (nodeEnv selfImportFiles) (join (dirname selfAgain.path) "./index.js")
        = .ok selfAgain := rfl
    have h2 : selfAgain.dependencies = ["./index.js"] := rfl
    simp only [getGraph, h2, List.foldl_cons, List.foldl_nil, graphStep, h1, ih]

theorem self_index_diverges (fuel : Nat) :
    getGraph (nodeEnv selfImportFiles) fuel selfIndex "./index.js" = none := by
  cases fuel with
  | zero => rfl
  | succ n =>
    have h1 : getModule (nodeEnv selfImportFiles) (join (dirname selfIndex.path) "./index.js")
        = .ok selfAgain := rfl
    have h2 : selfIndex.dependencies = ["./index.js"] := rfl
    simp only [getGraph, h2, List.foldl_cons, List.foldl_nil, graphStep, h1,
      self_again_diverges]

/-! ## C1: one entry per module -/

/-- C1, counterexample.  In the diamond tree `index.js` imports `a.js` and
`b.js`, which both import `c.js`.  `genBundle` returns an artifact whose table
has the key `./c.js` twice: two entries hold the module read from `c.js`. -/
theorem diamond_table_repeats_module :
    genBundle (nodeEnv diamondFiles) 3 "./index.js"
        = some (.ok (bundleText "./index.js" (renderEntries diamondEntries)))
      ∧ (traverseBundle (nodeEnv diamondFiles) 3 "./index.js").result = some (.ok diamondEntries)
      ∧ keysOf diamondEntries = ["./index.js", "./a.js", "./c.js", "./b.js", "./c.js"]
      ∧ ¬ (keysOf diamondEntries).Nodup
      ∧ entriesFor "c.js" diamondEntries = 2 :=
  ⟨diamond_bundle, rfl, rfl, by decide, by decide⟩

/-- C1, amended.  Whenever `genBundle` returns an artifact, its table holds one
entry per import followed, not one per module: the number of entries holding
the module read from `p` is one if `p` is the entry path, plus the number
of import declarations of the emitted modules, counted entry by entry, that
resolve to `p`. -/
theorem table_entries_counted (env : Env) (fuel : Nat) (entryPath artifact : String)
    (h : genBundle env fuel entryPath = some (.ok artifact)) :
    ∃ entries, (traverseBundle env fuel entryPath).result = some (.ok entries)
      ∧ artifact = bundleText entryPath (renderEntries entries)
      ∧ ∀ p, entriesFor p entries = (if entryPath = p then 1 else 0) + importsInto p entries := by
  obtain ⟨m, rest, hm, hrun, hart, inv⟩ := genBundle_inv env fuel entryPath artifact h
  refine ⟨⟨entryPath, m⟩ :: rest, by rw [hrun], hart, ?_⟩
  intro p
  rw [entriesFor_cons, inv.counted p]
  simp [getModule_path hm]

/-- C1, the amended statement at the diamond tree: `c.js` is not the entry and
two imports resolve to it, so it has two entries. -/
theorem table_entries_counted_witness :
    genBundle (nodeEnv diamondFiles) 3 "./index.js" = some (.ok diamondArtifact)
      ∧ ∃ entries, (traverseBundle (nodeEnv diamondFiles) 3 "./index.js").result
            = some (.ok entries)
          ∧ diamondArtifact = bundleText "./index.js" (renderEntries entries)
          ∧ ∀ p, entriesFor p entries
              = (if "./index.js" = p then 1 else 0) + importsInto p entries :=
  ⟨diamond_bundle,
    table_entries_counted (nodeEnv diamondFiles) 3 "./index.js" diamondArtifact diamond_bundle⟩

/-! ## C2: termination -/

/-- C2, counterexample.  A file that imports itself: every import resolves to
a readable, parseable file, and `genBundle` returns nothing, neither an
artifact nor an error, whatever the fuel.  The path reached again is read and
processed again. -/
theorem self_import_never_returns :
    ¬ ∃ fuel r, genBundle (nodeEnv selfImportFiles) fuel "./index.js" = some r := by
  rintro ⟨fuel, r, h⟩
  have h1 : getModule (nodeEnv selfImportFiles) "./index.js" = .ok selfIndex := rfl
  simp [genBundle, h1, self_index_diverges] at h

/-- C2, amended.  When every file the traversal can get to is readable and
parseable and the imports it can follow form no cycle (a rank on the paths
falls along every import), `genBundle` returns an artifact for every fuel above
the rank of the entry. -/
theorem genBundle_returns_of_acyclic (env : Env) (entryPath : String) (rank : String → Nat)
    (hok : ∀ p, Reach env entryPath p → ∃ m, getModule env p = .ok m)
    (hrank : ∀ p m s, Reach env entryPath p → getModule env p = .ok m → s ∈ m.dependencies →
      rank (join (dirname p) s) < rank p) :
    ∀ fuel, rank entryPath < fuel → ∃ artifact, genBundle env fuel entryPath = some (.ok artifact) := by
  intro fuel hfuel
  obtain ⟨m, hm⟩ := hok entryPath Reach.entry
  obtain ⟨es, hes⟩ := traverseGraph_returns env entryPath rank hok hrank fuel entryPath m
    entryPath Reach.entry hm hfuel
  refine ⟨bundleText entryPath (renderEntries es), ?_⟩
  rw [genBundle_eq_render]
  simp [traverseBundle, hm, hes]

/-- C2, the amended statement at the pair tree, where `index.js` imports
`a.js`: with fuel 2 an artifact is returned. -/
theorem genBundle_returns_of_acyclic_witness :
    ∃ artifact, genBundle (nodeEnv pairFiles) 2 "./index.js" = some (.ok artifact) :=
  genBundle_returns_of_acyclic (nodeEnv pairFiles) "./index.js" pairRank
    (by
      intro p hp
      rcases pair_reach p hp with rfl | rfl
      · exact ⟨pairIndex, rfl⟩
      · exact ⟨pairA, rfl⟩)
    (by
      intro p m s hp hm hs
      rcases pair_reach p hp with rfl | rfl
      · have h1 : getModule (nodeEnv pairFiles) "./index.js" = .ok pairIndex := rfl
        rw [h1] at hm; cases hm
        simp only [pairIndex, List.mem_singleton] at hs
        subst hs
        decide
      · have h1 : getModule (nodeEnv pairFiles) "a.js" = .ok pairA := rfl
        rw [h1] at hm; cases hm
        simp [pairA] at hs)
    2 (by decide)

/-! ## C3: what a key looks up -/

/-- C3, at the failing input.  `index.js` imports `./sub/main.js`, which
imports `./index.js`, from there the file `sub/index.js`.  The table has the
key `./index.js` twice, the entry module first and the module of
`sub/index.js` last; the last entry wins, so the entry path looks up the
module of `sub/index.js` and not the entry module. -/
theorem shadowed_entry_lookup :
    traverseBundle (nodeEnv shadowFiles) 3 "./index.js"
        = ⟨["./index.js", "sub/main.js", "sub/index.js"], some (.ok shadowEntries)⟩
      ∧ genBundle (nodeEnv shadowFiles) 3 "./index.js"
        = some (.ok (bundleText "./index.js" (renderEntries shadowEntries)))
      ∧ keysOf shadowEntries = ["./index.js", "./sub/main.js", "./index.js"]
      ∧ getModule (nodeEnv shadowFiles) "./index.js" = .ok shadowIndex
      ∧ lookupModule shadowEntries "./index.js" = some shadowSubIndex
      ∧ shadowSubIndex.code ≠ shadowIndex.code := by
  refine ⟨rfl, ?_, rfl, rfl, by decide, by decide⟩
  rw [genBundle_eq_render]; rfl

/-! ## C4: the closure of the table -/

/-- C4, counterexample.  In the pair tree the entry `./index.js` declares the
specifier `./a.js`, which resolves to `a.js`; the keys of the table are
`./index.js` and `./a.js`, and `a.js` is not among them. -/
theorem pair_resolved_path_is_no_key :
    genBundle (nodeEnv pairFiles) 2 "./index.js"
        = some (.ok (bundleText "./index.js" (renderEntries pairEntries)))
      ∧ (traverseBundle (nodeEnv pairFiles) 2 "./index.js").result = some (.ok pairEntries)
      ∧ (⟨"./index.js", pairIndex⟩ : Entry) ∈ pairEntries
      ∧ "./a.js" ∈ pairIndex.dependencies
      ∧ join (dirname pairIndex.path) "./a.js" = "a.js"
      ∧ keysOf pairEntries = ["./index.js", "./a.js"]
      ∧ join (dirname pairIndex.path) "./a.js" ∉ keysOf pairEntries :=
  ⟨pair_bundle, rfl, by decide, by decide, by decide, rfl, by decide⟩

/-- C4, amended.  Whenever `genBundle` returns an artifact, every dependency
specifier `s` of every module of its table has an entry in the table that
holds the module `getModule` returns for the resolved path
`join(dirname(p), s)`; the key of that entry is the raw specifier `s`. -/
theorem imports_have_entries (env : Env) (fuel : Nat) (entryPath artifact : String)
    (h : genBundle env fuel entryPath = some (.ok artifact)) :
    ∃ entries, (traverseBundle env fuel entryPath).result = some (.ok entries)
      ∧ artifact = bundleText entryPath (renderEntries entries)
      ∧ ∀ e ∈ entries, ∀ s ∈ e.module.dependencies,
          ∃ e1 ∈ entries, e1.key = s
            ∧ e1.module.path = join (dirname e.module.path) s
            ∧ getModule env (join (dirname e.module.path) s) = .ok e1.module := by
  obtain ⟨m, rest, hm, hrun, hart, inv⟩ := genBundle_inv env fuel entryPath artifact h
  refine ⟨⟨entryPath, m⟩ :: rest, by rw [hrun], hart, ?_⟩
  intro e he s hs
  obtain ⟨e1, he1, hk, hp⟩ := inv.closed e he s hs
  refine ⟨e1, List.mem_cons_of_mem _ he1, hk, hp, ?_⟩
  have hg := inv.genuine e1 he1
  rw [hp] at hg
  exact hg

/-- C4, the amended statement at the pair tree. -/
theorem imports_have_entries_witness :
    genBundle (nodeEnv pairFiles) 2 "./index.js" = some (.ok pairArtifact)
      ∧ ∃ entries, (traverseBundle (nodeEnv pairFiles) 2 "./index.js").result
            = some (.ok entries)
          ∧ pairArtifact = bundleText "./index.js" (renderEntries entries)
          ∧ ∀ e ∈ entries, ∀ s ∈ e.module.dependencies,
              ∃ e1 ∈ entries, e1.key = s
                ∧ e1.module.path = join (dirname e.module.path) s
                ∧ getModule (nodeEnv pairFiles) (join (dirname e.module.path) s)
                    = .ok e1.module :=
  ⟨pair_bundle, imports_have_entries (nodeEnv pairFiles) 2 "./index.js" pairArtifact pair_bundle⟩

/-! ## C5: the keys -/

/-- C5, counterexample.  In the pair tree the module reached as dependency
`./a.js` of the module read from `./index.js` was read from
`join(dirname('./index.js'), './a.js')`, which is `a.js`; its key in the table
is `./a.js`. -/
theorem pair_key_is_not_resolved_path :
    (traverseBundle (nodeEnv pairFiles) 2 "./index.js").result = some (.ok pairEntries)
      ∧ (traverseBundle (nodeEnv pairFiles) 2 "./index.js").calls = ["./index.js", "a.js"]
      ∧ pairEntries = [⟨"./index.js", pairIndex⟩, ⟨"./a.js", pairA⟩]
      ∧ pairIndex.dependencies = ["./a.js"]
      ∧ getModule (nodeEnv pairFiles) (join (dirname "./index.js") "./a.js") = .ok pairA
      ∧ join (dirname "./index.js") "./a.js" = "a.js"
      ∧ (⟨"./a.js", pairA⟩ : Entry).key ≠ join (dirname "./index.js") "./a.js" :=
  ⟨rfl, rfl, rfl, rfl, rfl, by decide, by decide⟩

/-- C5, amended.  Whenever `genBundle` returns an artifact, the first entry of
its table holds the entry module under the entry path, and every other entry
holds a module reached as dependency `s` of an emitted module read from `p`:
its key is the raw specifier `s`, and its module is the one `getModule`
returns for `join(dirname(p), s)`. -/
theorem keys_are_raw_specifiers (env : Env) (fuel : Nat) (entryPath artifact : String)
    (h : genBundle env fuel entryPath = some (.ok artifact)) :
    ∃ (m : Module) (rest : List Entry),
      (traverseBundle env fuel entryPath).result = some (.ok (⟨entryPath, m⟩ :: rest))
      ∧ artifact = bundleText entryPath (renderEntries (⟨entryPath, m⟩ :: rest))
      ∧ getModule env entryPath = .ok m
      ∧ ∀ e1 ∈ rest, ∃ e ∈ (⟨entryPath, m⟩ : Entry) :: rest, ∃ s ∈ e.module.dependencies,
          e1.key = s
            ∧ e1.module.path = join (dirname e.module.path) s
            ∧ getModule env (join (dirname e.module.path) s) = .ok e1.module := by
  obtain ⟨m, rest, hm, hrun, hart, inv⟩ := genBundle_inv env fuel entryPath artifact h
  refine ⟨m, rest, by rw [hrun], hart, hm, ?_⟩
  intro e1 he1
  obtain ⟨e, he, s, hs, hk, hp⟩ := inv.origin e1 he1
  refine ⟨e, he, s, hs, hk, hp, ?_⟩
  have hg := inv.genuine e1 he1
  rw [hp] at hg
  exact hg

/-- C5, the amended statement at the pair tree. -/
theorem keys_are_raw_specifiers_witness :
    genBundle (nodeEnv pairFiles) 2 "./index.js" = some (.ok pairArtifact)
      ∧ ∃ (m : Module) (rest : List Entry),
        (traverseBundle (nodeEnv pairFiles) 2 "./index.js").result
            = some (.ok (⟨"./index.js", m⟩ :: rest))
          ∧ pairArtifact = bundleText "./index.js" (renderEntries (⟨"./index.js", m⟩ :: rest))
          ∧ getModule (nodeEnv pairFiles) "./index.js" = .ok m
          ∧ ∀ e1 ∈ rest, ∃ e ∈ (⟨"./index.js", m⟩ : Entry) :: rest,
              ∃ s ∈ e.module.dependencies,
                e1.key = s
                  ∧ e1.module.path = join (dirname e.module.path) s
                  ∧ getModule (nodeEnv pairFiles) (join (dirname e.module.path) s)
                      = .ok e1.module :=
  ⟨pair_bundle, keys_are_raw_specifiers (nodeEnv pairFiles) 2 "./index.js" pairArtifact pair_bundle⟩

/-! ## C6: the calls of `getModule` -/

theorem count_pathsOf (p : String) (es : List Entry) :
    (pathsOf es).count p = entriesFor p es := by
  induction es with
  | nil => rfl
  | cons e es ih =>
    simp only [pathsOf, List.map_cons, List.count_cons, entriesFor_cons] at ih ⊢
    rw [ih]
    simp [Nat.add_comm]

/-- C6, counterexample.  In the diamond tree `getModule` is called five times
for four files: twice with `c.js`, once for each module that imports it. -/
theorem diamond_reads_shared_file_twice :
    genBundle (nodeEnv diamondFiles) 3 "./index.js" = some (.ok diamondArtifact)
      ∧ (traverseBundle (nodeEnv diamondFiles) 3 "./index.js").calls
        = ["./index.js", "a.js", "c.js", "b.js", "c.js"]
      ∧ (traverseBundle (nodeEnv diamondFiles) 3 "./index.js").calls.count "c.js" = 2 :=
  ⟨diamond_bundle, rfl, by decide⟩

/-- C6, amended.  Whenever `genBundle` returns an artifact, the calls of
`getModule` are, in order, the paths of the entries of the table, one call per
entry, and every file the traversal can get to is among them: each is read at
least once, and as often as it has entries. -/
theorem getModule_called_per_entry (env : Env) (fuel : Nat) (entryPath artifact : String)
    (h : genBundle env fuel entryPath = some (.ok artifact)) :
    ∃ entries, (traverseBundle env fuel entryPath).result = some (.ok entries)
      ∧ artifact = bundleText entryPath (renderEntries entries)
      ∧ (traverseBundle env fuel entryPath).calls = pathsOf entries
      ∧ (∀ p, (traverseBundle env fuel entryPath).calls.count p = entriesFor p entries)
      ∧ ∀ p, Reach env entryPath p → p ∈ (traverseBundle env fuel entryPath).calls := by
  obtain ⟨m, rest, hm, hrun, hart, inv⟩ := genBundle_inv env fuel entryPath artifact h
  have hpaths : pathsOf (⟨entryPath, m⟩ :: rest) = entryPath :: pathsOf rest := by
    simp [pathsOf, getModule_path hm]
  refine ⟨⟨entryPath, m⟩ :: rest, by rw [hrun], hart, by rw [hrun, hpaths], ?_, ?_⟩
  · intro p
    rw [hrun]
    simp only [← hpaths]
    exact count_pathsOf p _
  · intro p hp
    rw [hrun]
    exact reach_mem_calls env entryPath m rest hm inv p hp

/-- C6, the amended statement at the diamond tree. -/
theorem getModule_called_per_entry_witness :
    genBundle (nodeEnv diamondFiles) 3 "./index.js" = some (.ok diamondArtifact)
      ∧ ∃ entries, (traverseBundle (nodeEnv diamondFiles) 3 "./index.js").result
            = some (.ok entries)
          ∧ diamondArtifact = bundleText "./index.js" (renderEntries entries)
          ∧ (traverseBundle (nodeEnv diamondFiles) 3 "./index.js").calls = pathsOf entries
          ∧ (∀ p, (traverseBundle (nodeEnv diamondFiles) 3 "./index.js").calls.count p
                = entriesFor p entries)
          ∧ ∀ p, Reach (nodeEnv diamondFiles) "./index.js" p →
              p ∈ (traverseBundle (nodeEnv diamondFiles) 3 "./index.js").calls :=
  ⟨diamond_bundle,
    getModule_called_per_entry (nodeEnv diamondFiles) 3 "./index.js" diamondArtifact
      diamond_bundle⟩

/-! ## C7 and C8: failures -/

theorem genBundle_of_failed_call (env : Env) (fuel : Nat) (entryPath p : String) (e : Error)
    (hp : p ∈ (traverseBundle env fuel entryPath).calls) (he : getModule env p = .error e) :
    genBundle env fuel entryPath = some (.error e) := by
  rw [genBundle_eq_render, traverseBundle_fatal env fuel entryPath p hp e he]

theorem no_artifact_of_failed_file (env : Env) (fuel : Nat) (entryPath p : String) (e : Error)
    (hp : Reach env entryPath p) (he : getModule env p = .error e) (artifact : String) :
    genBundle env fuel entryPath ≠ some (.ok artifact) := by
  intro h
  obtain ⟨m, rest, hm, hrun, _, inv⟩ := genBundle_inv env fuel entryPath artifact h
  have hmem : p ∈ (traverseBundle env fuel entryPath).calls := by
    rw [hrun]; exact reach_mem_calls env entryPath m rest hm inv p hp
  rw [genBundle_of_failed_call env fuel entryPath p e hmem he] at h
  simp at h

theorem getModule_of_read_error (env : Env) (p : String) (e : Error)
    (h : env.readFileSync p = .error e) : getModule env p = .error e := by
  simp [getModule, h]

/-- C7.  All or nothing.  When a call of `getModule` made by the traversal
fails, for the entry or for any file it gets to, `genBundle` fails with the
error of that call and returns no artifact; when `genBundle` returns an
artifact, every call of `getModule` made by the traversal succeeded; a file the
traversal can get to and that `getModule` fails on excludes an artifact
whatever the fuel; and the script writes `./dist/bundle.js` only with an
artifact `genBundle` returned, failing with the error of `genBundle`
otherwise. -/
theorem build_all_or_nothing (env : Env) (fuel : Nat) (entryPath : String) :
    (∀ p e, p ∈ (traverseBundle env fuel entryPath).calls → getModule env p = .error e →
        genBundle env fuel entryPath = some (.error e))
      ∧ (∀ artifact, genBundle env fuel entryPath = some (.ok artifact) →
          ∀ p ∈ (traverseBundle env fuel entryPath).calls, ∃ m, getModule env p = .ok m)
      ∧ (∀ p e, Reach env entryPath p → getModule env p = .error e →
          ∀ n artifact, genBundle env n entryPath ≠ some (.ok artifact))
      ∧ (∀ files, bundleScript env fuel = some (.ok files) →
          ∃ artifact, genBundle env fuel "./index.js" = some (.ok artifact)
            ∧ files = [("./dist/bundle.js", artifact)])
      ∧ (∀ p e, p ∈ (traverseBundle env fuel "./index.js").calls → getModule env p = .error e →
          bundleScript env fuel = some (.error e)) := by
  refine ⟨?_, ?_, ?_, ?_, ?_⟩
  · intro p e hp he
    exact genBundle_of_failed_call env fuel entryPath p e hp he
  · intro artifact h p hp
    cases hm : getModule env p with
    | ok m => exact ⟨m, rfl⟩
    | error e =>
      rw [genBundle_of_failed_call env fuel entryPath p e hp hm] at h
      simp at h
  · intro p e hp he n artifact
    exact no_artifact_of_failed_file env n entryPath p e hp he artifact
  · intro files h
    unfold bundleScript at h
    rcases hg : genBundle env fuel "./index.js" with _ | (e | bundle)
    · simp [hg] at h
    · simp [hg] at h
    · simp only [hg, Option.some.injEq, Except.ok.injEq] at h
      exact ⟨bundle, rfl, h.symm⟩
  · intro p e hp he
    unfold bundleScript
    rw [genBundle_of_failed_call env fuel "./index.js" p e hp he]

/-- C7 at the tree whose entry imports a missing file: the call for
`missing.js` is made and fails, `genBundle` fails with its error, and the
script fails with it too and writes nothing. -/
theorem build_all_or_nothing_witness :
    "missing.js" ∈ (traverseBundle (nodeEnv missingFiles) 2 "./index.js").calls
      ∧ getModule (nodeEnv missingFiles) "missing.js" = .error missingError
      ∧ genBundle (nodeEnv missingFiles) 2 "./index.js" = some (.error missingError)
      ∧ bundleScript (nodeEnv missingFiles) 2 = some (.error missingError) :=
  ⟨by decide, rfl,
    (build_all_or_nothing (nodeEnv missingFiles) 2 "./index.js").1 "missing.js" missingError
      (by decide) rfl,
    (build_all_or_nothing (nodeEnv missingFiles) 2 "./index.js").2.2.2.2 "missing.js"
      missingError (by decide) rfl⟩

/-- C8, counterexample.  The entry `./index.js` imports `./missing.js`, which
resolves to `missing.js`, not an existing file.  The build fails with the error
of `readFileSync`, whose message names `missing.js`, the resolved path: it
mentions neither the specifier `./missing.js` nor the importer `./index.js`. -/
theorem missing_import_error_names_neither :
    getModule (nodeEnv missingFiles) "./index.js" = .ok missingIndex
      ∧ missingIndex.dependencies = ["./missing.js"]
      ∧ join (dirname "./index.js") "./missing.js" = "missing.js"
      ∧ genBundle (nodeEnv missingFiles) 2 "./index.js" = some (.error missingError)
      ∧ missingError.message = "ENOENT: no such file or directory, open 'missing.js'"
      ∧ mentions missingError.message "./missing.js" = false
      ∧ mentions missingError.message "./index.js" = false :=
  ⟨rfl, rfl, by decide, rfl, rfl, by decide, by decide⟩

/-- C8, amended.  When a module read from a path `p` the traversal can get to
declares a specifier `s` and `readFileSync` fails on `join(dirname(p), s)`, no
fuel gives an artifact, and a traversal that gets to that import fails with the
error `readFileSync` raised for the resolved path, passed on as it is. -/
theorem missing_import_fails_with_read_error (env : Env) (entryPath p : String) (m : Module)
    (s : String) (e : Error) (hp : Reach env entryPath p) (hm : getModule env p = .ok m)
    (hs : s ∈ m.dependencies) (hread : env.readFileSync (join (dirname p) s) = .error e) :
    (∀ fuel artifact, genBundle env fuel entryPath ≠ some (.ok artifact))
      ∧ (∀ fuel, join (dirname p) s ∈ (traverseBundle env fuel entryPath).calls →
          genBundle env fuel entryPath = some (.error e)) := by
  have he : getModule env (join (dirname p) s) = .error e := getModule_of_read_error env _ e hread
  refine ⟨?_, ?_⟩
  · intro fuel artifact
    exact no_artifact_of_failed_file env fuel entryPath _ e (Reach.dep hp hm hs) he artifact
  · intro fuel hmem
    exact genBundle_of_failed_call env fuel entryPath _ e hmem he

/-- C8, the amended statement at the tree whose entry imports a missing
file. -/
theorem missing_import_fails_with_read_error_witness :
    (∀ fuel artifact, genBundle (nodeEnv missingFiles) fuel "./index.js" ≠ some (.ok artifact))
      ∧ (∀ fuel, join (dirname "./index.js") "./missing.js"
            ∈ (traverseBundle (nodeEnv missingFiles) fuel "./index.js").calls →
          genBundle (nodeEnv missingFiles) fuel "./index.js" = some (.error missingError)) :=
  missing_import_fails_with_read_error (nodeEnv missingFiles) "./index.js" "./index.js"
    missingIndex "./missing.js" missingError Reach.entry rfl (by decide) rfl

/-! ## The runtime -/

theorem grows_refl (s : RtState) : Grows s s :=
  ⟨[], by simp, by simp, Nat.le_refl _⟩

theorem grows_trans {s s1 s2 : RtState} (h1 : Grows s s1) (h2 : Grows s1 s2) : Grows s s2 := by
  obtain ⟨m1, hi1, hr1, hn1⟩ := h1
  obtain ⟨m2, hi2, hr2, hn2⟩ := h2
  refine ⟨m1 ++ m2, by rw [hi2, hi1, List.append_assoc], ?_, Nat.le_trans hn1 hn2⟩
  intro r hr
  rcases List.mem_append.mp hr with h | h
  · exact hr1 r h
  · exact Nat.le_trans hn1 (hr2 r h)

theorem runProg_grows (req : String → RtState → Completion (Value × RtState))
    (hreq : ∀ path s v s1, req path s = .normal (v, s1) → Grows s s1)
    (prog : Prog) (s s1 : RtState) (h : runProg req prog s = .normal s1) : Grows s s1 := by
  induction prog generalizing s with
  | ret => simp only [runProg, Completion.normal.injEq] at h; subst h; exact grows_refl s
  | throw v => simp [runProg] at h
  | alloc k ih =>
    simp only [runProg] at h
    have h1 := ih _ _ h
    refine grows_trans ⟨[], by simp, by simp, ?_⟩ h1
    simp [Heap.alloc]
  | get r field k ih =>
    simp only [runProg] at h
    exact ih _ _ h
  | set r field v k ih =>
    simp only [runProg] at h
    have h1 := ih _ h
    exact grows_trans ⟨[], by simp, by simp, by simp [Heap.set]⟩ h1
  | require path k ih =>
    simp only [runProg] at h
    rcases hr : req path s with ⟨v, s0⟩ | t | _
    · rw [hr] at h
      exact grows_trans (hreq path s v s0 hr) (ih v s0 h)
    · rw [hr] at h; simp at h
    · rw [hr] at h; simp at h

theorem enterRequire_next (path : String) (s : RtState) :
    (enterRequire path s).heap.next = s.heap.next + 2 := by
  simp [enterRequire, Heap.alloc, Heap.set]

theorem enterRequire_invoked (path : String) (s : RtState) :
    (enterRequire path s).invoked
      = s.invoked ++ [⟨path, s.heap.next + 1, .object s.heap.next⟩] := by
  simp [enterRequire, Heap.alloc, Heap.set]

theorem enterRequire_exports (path : String) (s : RtState) :
    (enterRequire path s).heap.get (s.heap.next + 1) "exports" = .object s.heap.next := by
  simp [enterRequire, Heap.alloc, Heap.set, Heap.get]

theorem enterRequire_empty (path : String) (s : RtState)
    (hwf : ∀ w ∈ s.heap.props, w.1 < s.heap.next) (field : String) :
    (enterRequire path s).heap.get s.heap.next field = .undefined := by
  have hnone : s.heap.props.find? (fun w => w.1 == s.heap.next && w.2.1 == field) = none := by
    rw [List.find?_eq_none]
    intro w hw
    have := hwf w hw
    simp only [Bool.and_eq_true, beq_iff_eq, not_and]
    intro h1; omega
  simp [enterRequire, Heap.alloc, Heap.set, Heap.get, List.find?_cons, hnone]

/-- The emitted `require`, step by step: the module object and its exports
object are built, the factory found under the path is run once on them, and
the value of `module.exports` afterwards is returned. -/
theorem require_unfold (rt : Runtime) (fuel : Nat) (path : String) (factory : Factory)
    (hf : rt.lookup path = some factory) (s : RtState) :
    require rt (fuel + 1) path s
      = match runProg (require rt fuel) (factory (s.heap.next + 1) (.object s.heap.next))
            (enterRequire path s) with
        | .normal s1 => .normal (s1.heap.get (s.heap.next + 1) "exports", s1)
        | .thrown t => .thrown t
        | .outOfFuel => .outOfFuel := by
  have h1 : s.heap.alloc.2.alloc.1 = s.heap.next + 1 := rfl
  simp only [require, hf, h1, enterRequire_exports]

theorem require_grows (rt : Runtime) (fuel : Nat) (path : String) (s : RtState) (v : Value)
    (s1 : RtState) (h : require rt fuel path s = .normal (v, s1)) :
    v = s1.heap.get (s.heap.next + 1) "exports"
      ∧ ∃ more, s1.invoked = s.invoked ++ ⟨path, s.heap.next + 1, .object s.heap.next⟩ :: more
        ∧ (∀ r ∈ more, s.heap.next + 2 ≤ r.module) ∧ s.heap.next + 2 ≤ s1.heap.next := by
  induction fuel generalizing path s v s1 with
  | zero => simp [require] at h
  | succ n ih =>
    cases hf : rt.lookup path with
    | none => simp [require, hf] at h
    | some factory =>
      rw [require_unfold rt n path factory hf s] at h
      have hreq : ∀ path s v s1, require rt n path s = .normal (v, s1) → Grows s s1 := by
        intro path s v s1 h1
        obtain ⟨_, more, hi, hr, hn⟩ := ih path s v s1 h1
        refine ⟨_ :: more, hi, ?_, by omega⟩
        intro r hr1
        rcases List.mem_cons.mp hr1 with rfl | hr1
        · simp
        · have := hr r hr1; omega
      rcases hrun : runProg (require rt n) (factory (s.heap.next + 1) (.object s.heap.next))
          (enterRequire path s) with s2 | t | _
      · rw [hrun] at h
        simp only [Completion.normal.injEq, Prod.mk.injEq] at h
        obtain ⟨hv, hs⟩ := h
        subst hs
        obtain ⟨more, hi, hr, hn⟩ := runProg_grows _ hreq _ _ _ hrun
        rw [enterRequire_invoked, List.append_assoc] at hi
        rw [enterRequire_next] at hr hn
        exact ⟨hv.symm, more, by simpa using hi, hr, hn⟩
      · rw [hrun] at h; simp at h
      · rw [hrun] at h; simp at h

theorem requireTimes_grows (rt : Runtime) (fuel : Nat) (path : String) (n : Nat) (s : RtState)
    (vs : List Value) (s1 : RtState) (h : requireTimes rt fuel path n s = .normal (vs, s1)) :
    vs.length = n
      ∧ s.invoked.countP (fun r => r.key = path) + n ≤ s1.invoked.countP (fun r => r.key = path)
      ∧ s.heap.next ≤ s1.heap.next := by
  induction n generalizing s vs with
  | zero =>
    simp only [requireTimes, Completion.normal.injEq, Prod.mk.injEq] at h
    obtain ⟨rfl, rfl⟩ := h
    simp
  | succ n ih =>
    simp only [requireTimes] at h
    rcases hr : require rt fuel path s with ⟨v, s0⟩ | t | _
    · simp only [hr] at h
      rcases hrest : requireTimes rt fuel path n s0 with ⟨vs0, s2⟩ | t | _
      · simp only [hrest, Completion.normal.injEq, Prod.mk.injEq] at h
        obtain ⟨rfl, rfl⟩ := h
        obtain ⟨hlen, hcount, hnext⟩ := ih s0 vs0 hrest
        obtain ⟨_, more, hi, _, hn⟩ := require_grows rt fuel path s v s0 hr
        have hc : s.invoked.countP (fun r => r.key = path) + 1
            ≤ s0.invoked.countP (fun r => r.key = path) := by
          rw [hi, List.countP_append, List.countP_cons]
          simp
        refine ⟨by simp [hlen], by omega, by omega⟩
      · simp [hrest] at h
      · simp [hrest] at h
    · rw [hr] at h; simp at h
    · rw [hr] at h; simp at h

theorem requireTimes_distinct (rt : Runtime) (fuel : Nat) (path : String) (factory : Factory)
    (hf : rt.lookup path = some factory)
    (hkeep : ∀ fuel s s1,
      runProg (require rt fuel) (factory (s.heap.next + 1) (.object s.heap.next))
        (enterRequire path s) = .normal s1 →
      s1.heap.get (s.heap.next + 1) "exports" = .object s.heap.next)
    (n : Nat) (s : RtState) (vs : List Value) (s1 : RtState)
    (h : requireTimes rt fuel path n s = .normal (vs, s1)) :
    vs.Nodup ∧ ∀ v ∈ vs, ∃ r, v = .object r ∧ s.heap.next ≤ r ∧ r < s1.heap.next := by
  induction n generalizing s vs with
  | zero =>
    simp only [requireTimes, Completion.normal.injEq, Prod.mk.injEq] at h
    obtain ⟨rfl, rfl⟩ := h
    simp
  | succ n ih =>
    simp only [requireTimes] at h
    rcases hr : require rt fuel path s with ⟨v, s0⟩ | t | _
    · simp only [hr] at h
      rcases hrest : requireTimes rt fuel path n s0 with ⟨vs0, s2⟩ | t | _
      · simp only [hrest, Completion.normal.injEq, Prod.mk.injEq] at h
        obtain ⟨rfl, rfl⟩ := h
        obtain ⟨hnodup, hrange⟩ := ih s0 vs0 hrest
        obtain ⟨_, _, hnext⟩ := requireTimes_grows rt fuel path n s0 vs0 s2 hrest
        obtain ⟨_, more, _, _, hn⟩ := require_grows rt fuel path s v s0 hr
        have hv : v = .object s.heap.next := by
          cases fuel with
          | zero => simp [require] at hr
          | succ k =>
            rw [require_unfold rt k path factory hf s] at hr
            rcases hrun : runProg (require rt k) (factory (s.heap.next + 1) (.object s.heap.next))
                (enterRequire path s) with s3 | t | _
            · rw [hrun] at hr
              simp only [Completion.normal.injEq, Prod.mk.injEq] at hr
              rw [← hr.1]
              exact hkeep k s s3 hrun
            · rw [hrun] at hr; simp at hr
            · rw [hrun] at hr; simp at hr
        refine ⟨List.nodup_cons.mpr ⟨?_, hnodup⟩, ?_⟩
        · intro hmem
          obtain ⟨r, hvr, hlo, _⟩ := hrange v hmem
          rw [hv] at hvr
          cases hvr
          omega
        · intro w hw
          rcases List.mem_cons.mp hw with rfl | hw
          · exact ⟨s.heap.next, hv, Nat.le_refl _, by omega⟩
          · obtain ⟨r, hwr, hlo, hhi⟩ := hrange w hw
            exact ⟨r, hwr, by omega, hhi⟩
      · simp [hrest] at h
      · simp [hrest] at h
    · rw [hr] at h; simp at h
    · rw [hr] at h; simp at h

theorem plainFactory_keeps (fuel : Nat) (s s1 : RtState)
    (h : runProg (require plainRuntime fuel) (plainFactory (s.heap.next + 1) (.object s.heap.next))
        (enterRequire "./c.js" s) = .normal s1) :
    s1.heap.get (s.heap.next + 1) "exports" = .object s.heap.next := by
  simp only [plainFactory, runProg, Completion.normal.injEq] at h
  subst h
  simp [enterRequire, Heap.alloc, Heap.set, Heap.get, List.find?_cons]

/-! ## C9: every call of `require` runs the factory afresh -/

/-- C9, counterexample.  The factory under `./c.js` rebinds `module.exports`
to an object that exists already (object 0).  Two calls of `require('./c.js')`
run the factory twice, on two module objects (2 and 4) with two exports objects
(1 and 3), and both return object 0: the values returned are not distinct. -/
theorem rebinding_factory_returns_same_object :
    requireTimes rebindingRuntime 1 "./c.js" 2 sharedState
      = .normal ([.object 0, .object 0],
          ⟨⟨5, [(4, "exports", .object 0), (4, "exports", .object 3),
                (2, "exports", .object 0), (2, "exports", .object 1)]⟩,
            [⟨"./c.js", 2, .object 1⟩, ⟨"./c.js", 4, .object 3⟩]⟩) := by
  decide

/-- C9, amended.  For a path whose lookup in the table gives a factory, every
call of `require` builds a module object and an exports object that did not
exist before, the exports object without properties and stored as the
module's `exports`, records one call of the factory, runs the factory once on
them, and, when the factory returns, returns the value of `module.exports` as
the factory left it.  Nothing is cached: `n` calls in a row that return give
`n` values and add at least `n` calls of the factory, one per call of `require`
plus those of nested calls, each on a module object of its own; and when the
factory leaves `module.exports` as it was given, the `n` values returned are
`n` distinct objects. -/
theorem require_runs_factory_afresh (rt : Runtime) (path : String) (factory : Factory)
    (hf : rt.lookup path = some factory) :
    (∀ s, (enterRequire path s).heap.next = s.heap.next + 2
        ∧ (enterRequire path s).heap.get (s.heap.next + 1) "exports" = .object s.heap.next
        ∧ ((∀ w ∈ s.heap.props, w.1 < s.heap.next) →
            ∀ field, (enterRequire path s).heap.get s.heap.next field = .undefined)
        ∧ (enterRequire path s).invoked
            = s.invoked ++ [⟨path, s.heap.next + 1, .object s.heap.next⟩])
      ∧ (∀ fuel s, require rt (fuel + 1) path s
          = match runProg (require rt fuel) (factory (s.heap.next + 1) (.object s.heap.next))
                (enterRequire path s) with
            | .normal s1 => .normal (s1.heap.get (s.heap.next + 1) "exports", s1)
            | .thrown t => .thrown t
            | .outOfFuel => .outOfFuel)
      ∧ (∀ fuel s v s1, require rt fuel path s = .normal (v, s1) →
          v = s1.heap.get (s.heap.next + 1) "exports"
            ∧ ∃ more, s1.invoked
                  = s.invoked ++ ⟨path, s.heap.next + 1, .object s.heap.next⟩ :: more
                ∧ ∀ r ∈ more, r.module ≠ s.heap.next + 1)
      ∧ (∀ fuel n s vs s1, requireTimes rt fuel path n s = .normal (vs, s1) →
          vs.length = n
            ∧ s.invoked.countP (fun r => r.key = path) + n
                ≤ s1.invoked.countP (fun r => r.key = path))
      ∧ ((∀ fuel s s1,
            runProg (require rt fuel) (factory (s.heap.next + 1) (.object s.heap.next))
              (enterRequire path s) = .normal s1 →
            s1.heap.get (s.heap.next + 1) "exports" = .object s.heap.next) →
          ∀ fuel n s vs s1, requireTimes rt fuel path n s = .normal (vs, s1) → vs.Nodup) := by
  refine ⟨?_, ?_, ?_, ?_, ?_⟩
  · intro s
    exact ⟨enterRequire_next path s, enterRequire_exports path s,
      fun hwf field => enterRequire_empty path s hwf field, enterRequire_invoked path s⟩
  · intro fuel s
    exact require_unfold rt fuel path factory hf s
  · intro fuel s v s1 h
    obtain ⟨hv, more, hi, hr, _⟩ := require_grows rt fuel path s v s1 h
    refine ⟨hv, more, hi, ?_⟩
    intro r hmem heq
    have := hr r hmem
    omega
  · intro fuel n s vs s1 h
    obtain ⟨hlen, hcount, _⟩ := requireTimes_grows rt fuel path n s vs s1 h
    exact ⟨hlen, hcount⟩
  · intro hkeep fuel n s vs s1 h
    exact (requireTimes_distinct rt fuel path factory hf hkeep n s vs s1 h).1

/-- C9, the amended statement at a table whose factory under `./c.js` sets a
property of its exports object: three calls in a row return three distinct
objects. -/
theorem require_runs_factory_afresh_witness :
    plainRuntime.lookup "./c.js" = some plainFactory
      ∧ requireTimes plainRuntime 1 "./c.js" 3 initialState
        = .normal ([.object 0, .object 2, .object 4], plainAfterThree)
      ∧ [Value.object 0, Value.object 2, Value.object 4].Nodup :=
  ⟨rfl, by decide,
    (require_runs_factory_afresh plainRuntime "./c.js" plainFactory rfl).2.2.2.2
      plainFactory_keeps 1 3 initialState [.object 0, .object 2, .object 4] plainAfterThree
      (by decide)⟩

/-! ## C10: a path that is not a key -/

/-- C10, counterexample.  `toString` is not a key of the table, and
`modules['toString']` is the function every object literal inherits from
`Object.prototype`: `require('toString')` calls it, nothing is thrown, and the
call returns the empty exports object it built. -/
theorem require_inherited_name_returns :
    "toString" ∉ plainRuntime.modules.map Prod.fst
      ∧ (ownProperty plainRuntime.modules "toString").isNone = true
      ∧ require plainRuntime 1 "toString" initialState
        = .normal (.object 0,
            ⟨⟨2, [(1, "exports", .object 0)]⟩, [⟨"toString", 1, .object 0⟩]⟩) :=
  ⟨by decide, rfl, by decide⟩

/-- C10, amended.  For a path that is not a key of the table and does not name
a function the table inherits, `require` throws the `TypeError` of calling a
value that is no function, whatever the state; it returns nothing. -/
theorem require_absent_throws (rt : Runtime) (fuel : Nat) (path : String) (s : RtState)
    (hown : ownProperty rt.modules path = none) (hinherited : rt.inherited path = none) :
    require rt (fuel + 1) path s = .thrown (.typeError "modules[path] is not a function") := by
  have hl : rt.lookup path = none := by simp [Runtime.lookup, hown, hinherited]
  simp [require, hl]

/-- C10, the amended statement at `./d.js`, which the table with the one key
`./c.js` does not have and no object inherits. -/
theorem require_absent_throws_witness :
    require plainRuntime 1 "./d.js" initialState
      = .thrown (.typeError "modules[path] is not a function") :=
  require_absent_throws plainRuntime 0 "./d.js" initialState rfl rfl

/-! ## C11: where a dependency is read from -/

theorem math_run : traverseBundle (nodeEnv mathFiles) 3 "./index.js"
    = ⟨["./index.js", "math/index.js", "math/add.js"], some (.ok mathEntries)⟩ := rfl

theorem math_bundle :
    genBundle (nodeEnv mathFiles) 3 "./index.js" = some (.ok mathArtifact) := by
  rw [genBundle_eq_render, math_run]; rfl

theorem traceStep_calls_from_imports (env : Env) (recur : Module → String → Trace)
    (module : Module) (hmod : getModule env module.path = .ok module)
    (hrec : ∀ md k, getModule env md.path = .ok md → ∀ q ∈ (recur md k).calls,
      ∃ p m s, (p = md.path ∨ p ∈ (recur md k).calls) ∧ getModule env p = .ok m
        ∧ s ∈ m.dependencies ∧ q = join (dirname p) s)
    (acc : Trace) (d : String) (hd : d ∈ module.dependencies)
    (hacc : ∀ q ∈ acc.calls, ∃ p m s, (p = module.path ∨ p ∈ acc.calls)
      ∧ getModule env p = .ok m ∧ s ∈ m.dependencies ∧ q = join (dirname p) s) :
    ∀ q ∈ (traceStep env recur module acc d).calls, ∃ p m s,
      (p = module.path ∨ p ∈ (traceStep env recur module acc d).calls)
        ∧ getModule env p = .ok m ∧ s ∈ m.dependencies ∧ q = join (dirname p) s := by
  rcases acc with ⟨calls, result⟩
  rcases result with _ | (e0 | es)
  · simpa [traceStep] using hacc
  · simpa [traceStep] using hacc
  · -- the calls of the step: those before, the dependency, those below it
    have key : ∀ (sub : List String) (newCalls : List String),
        newCalls = calls ++ join (dirname module.path) d :: sub →
        (∀ q ∈ sub, ∃ p m s, (p = join (dirname module.path) d ∨ p ∈ sub)
          ∧ getModule env p = .ok m ∧ s ∈ m.dependencies ∧ q = join (dirname p) s) →
        ∀ q ∈ newCalls, ∃ p m s, (p = module.path ∨ p ∈ newCalls)
          ∧ getModule env p = .ok m ∧ s ∈ m.dependencies ∧ q = join (dirname p) s := by
      intro sub newCalls hnew hsub q hq
      subst hnew
      rcases List.mem_append.mp hq with h1 | h1
      · obtain ⟨p, m, s, hp, hm, hs, hqeq⟩ := hacc q h1
        refine ⟨p, m, s, ?_, hm, hs, hqeq⟩
        rcases hp with hp | hp
        · exact Or.inl hp
        · exact Or.inr (List.mem_append_left _ hp)
      · rcases List.mem_cons.mp h1 with h2 | h2
        · exact ⟨module.path, module, d, Or.inl rfl, hmod, hd, h2⟩
        · obtain ⟨p, m, s, hp, hm, hs, hqeq⟩ := hsub q h2
          refine ⟨p, m, s, Or.inr ?_, hm, hs, hqeq⟩
          rcases hp with hp | hp
          · rw [hp]; exact List.mem_append_right _ (List.mem_cons_self _ _)
          · exact List.mem_append_right _ (List.mem_cons_of_mem _ hp)
    cases hm : getModule env (join (dirname module.path) d) with
    | error e =>
      have hcalls : (traceStep env recur module ⟨calls, some (.ok es)⟩ d).calls
          = calls ++ join (dirname module.path) d :: [] := by
        simp [traceStep, hm]
      exact key [] _ hcalls (by intro q hq; cases hq)
    | ok md =>
      have hpath : md.path = join (dirname module.path) d := getModule_path hm
      have hsub := hrec md d (by rw [hpath]; exact hm)
      rw [hpath] at hsub
      have hcalls : (traceStep env recur module ⟨calls, some (.ok es)⟩ d).calls
          = calls ++ join (dirname module.path) d :: (recur md d).calls := by
        simp only [traceStep, hm]
        rcases (recur md d).result with _ | (e2 | es2) <;> rfl
      exact key _ _ hcalls hsub

theorem foldl_calls_from_imports (env : Env) (recur : Module → String → Trace)
    (module : Module) (hmod : getModule env module.path = .ok module)
    (hrec : ∀ md k, getModule env md.path = .ok md → ∀ q ∈ (recur md k).calls,
      ∃ p m s, (p = md.path ∨ p ∈ (recur md k).calls) ∧ getModule env p = .ok m
        ∧ s ∈ m.dependencies ∧ q = join (dirname p) s)
    (deps : List String) (hdeps : ∀ d ∈ deps, d ∈ module.dependencies) (acc : Trace)
    (hacc : ∀ q ∈ acc.calls, ∃ p m s, (p = module.path ∨ p ∈ acc.calls)
      ∧ getModule env p = .ok m ∧ s ∈ m.dependencies ∧ q = join (dirname p) s) :
    ∀ q ∈ (deps.foldl (traceStep env recur module) acc).calls, ∃ p m s,
      (p = module.path ∨ p ∈ (deps.foldl (traceStep env recur module) acc).calls)
        ∧ getModule env p = .ok m ∧ s ∈ m.dependencies ∧ q = join (dirname p) s := by
  induction deps generalizing acc with
  | nil => exact hacc
  | cons d ds ih =>
    simp only [List.foldl_cons]
    exact ih (fun d1 h1 => hdeps d1 (List.mem_cons_of_mem _ h1)) _
      (traceStep_calls_from_imports env recur module hmod hrec acc d
        (hdeps d (List.mem_cons_self _ _)) hacc)

theorem traverseGraph_calls_from_imports (env : Env) (fuel : Nat) (module : Module) (k : String)
    (hmod : getModule env module.path = .ok module) :
    ∀ q ∈ (traverseGraph env fuel module k).calls, ∃ p m s,
      (p = module.path ∨ p ∈ (traverseGraph env fuel module k).calls)
        ∧ getModule env p = .ok m ∧ s ∈ m.dependencies ∧ q = join (dirname p) s := by
  induction fuel generalizing module k with
  | zero => intro q hq; simp [traverseGraph] at hq
  | succ n ih =>
    simp only [traverseGraph]
    exact foldl_calls_from_imports env _ module hmod (fun md k1 h => ih md k1 h) _
      (fun d h => h) _ (by intro q hq; simp at hq)

/-- C11.  Every path `getModule` is called with, other than the entry path, is
`join(dirname(p), s)` for a path `p` that `getModule` was called with in the
same traversal, the module read from `p`, and a specifier `s` that module
declares: the directory is that of the importing module's own file, at every
depth and whatever the outcome.  And when `genBundle` returns an artifact,
every emitted module is the one read from its path `p`, and each of its
specifiers `s` was read from `join(dirname(p), s)`. -/
theorem imports_read_relative_to_importer (env : Env) (fuel : Nat) (entryPath : String) :
    (∀ q ∈ (traverseBundle env fuel entryPath).calls,
        q = entryPath ∨ ∃ p m s, p ∈ (traverseBundle env fuel entryPath).calls
          ∧ getModule env p = .ok m ∧ s ∈ m.dependencies ∧ q = join (dirname p) s)
      ∧ (∀ artifact, genBundle env fuel entryPath = some (.ok artifact) →
          ∃ entries, (traverseBundle env fuel entryPath).result = some (.ok entries)
            ∧ ∀ e ∈ entries, getModule env e.module.path = .ok e.module
              ∧ ∀ s ∈ e.module.dependencies,
                  join (dirname e.module.path) s ∈ (traverseBundle env fuel entryPath).calls) := by
  refine ⟨?_, ?_⟩
  · intro q hq
    unfold traverseBundle at hq ⊢
    cases hm : getModule env entryPath with
    | error e =>
      simp only [hm, List.mem_singleton] at hq
      exact Or.inl hq
    | ok m0 =>
      simp only [hm] at hq ⊢
      rcases List.mem_cons.mp hq with h1 | h1
      · exact Or.inl h1
      · have hpath : m0.path = entryPath := getModule_path hm
        obtain ⟨p, m, s, hp, hmp, hs, hqeq⟩ :=
          traverseGraph_calls_from_imports env fuel m0 entryPath (by rw [hpath]; exact hm) q h1
        refine Or.inr ⟨p, m, s, ?_, hmp, hs, hqeq⟩
        rcases hp with hp | hp
        · rw [hp, hpath]; exact List.mem_cons_self _ _
        · exact List.mem_cons_of_mem _ hp
  · intro artifact h
    obtain ⟨m, rest, hm, hrun, _, inv⟩ := genBundle_inv env fuel entryPath artifact h
    refine ⟨⟨entryPath, m⟩ :: rest, by rw [hrun], ?_⟩
    intro e he
    refine ⟨?_, ?_⟩
    · rcases List.mem_cons.mp he with rfl | he1
      · simpa [getModule_path hm] using hm
      · exact inv.genuine e he1
    · intro s hs
      obtain ⟨e1, he1, _, hp⟩ := inv.closed e he s hs
      rw [hrun]
      refine List.mem_cons_of_mem _ (List.mem_map.mpr ⟨e1, he1, ?_⟩)
      rw [hp]; rfl

/-- C11 at the math tree: the entry `./index.js` imports `./math/index.js`,
which imports `./add.js`; the file read for it is `math/add.js`. -/
theorem imports_read_relative_to_importer_witness :
    (traverseBundle (nodeEnv mathFiles) 3 "./index.js").calls
        = ["./index.js", "math/index.js", "math/add.js"]
      ∧ join (dirname "math/index.js") "./add.js" = "math/add.js"
      ∧ ("math/add.js" = "./index.js" ∨ ∃ p m s,
          p ∈ (traverseBundle (nodeEnv mathFiles) 3 "./index.js").calls
            ∧ getModule (nodeEnv mathFiles) p = .ok m ∧ s ∈ m.dependencies
            ∧ "math/add.js" = join (dirname p) s) :=
  ⟨rfl, by decide,
    (imports_read_relative_to_importer (nodeEnv mathFiles) 3 "./index.js").1 "math/add.js"
      (by decide)⟩

/-! ## C12: the order of the table text -/

theorem foldl_graphStep_stuck (env : Env) (recur : Module → String → Option (Except Error String))
    (module : Module) (deps : List String) (acc : Option (Except Error String))
    (h : ∀ t, acc ≠ some (.ok t)) :
    deps.foldl (graphStep env recur module) acc = acc := by
  induction deps with
  | nil => rfl
  | cons d ds ih =>
    simp only [List.foldl_cons]
    have hs : graphStep env recur module acc d = acc := by
      unfold graphStep
      split
      · rename_i t; exact absurd rfl (h t)
      · rfl
    rw [hs]; exact ih

theorem foldl_graphStep_ok_iff (env : Env) (recur : Module → String → Option (Except Error String))
    (module : Module) (deps : List String) (t0 text : String) :
    deps.foldl (graphStep env recur module) (some (.ok t0)) = some (.ok text)
      ↔ ∃ texts : List String,
          List.Forall₂ (fun d t => ∃ md, getModule env (join (dirname module.path) d) = .ok md
            ∧ recur md d = some (.ok t)) deps texts
          ∧ text = t0 ++ concatAll texts := by
  induction deps generalizing t0 with
  | nil =>
    simp only [List.foldl_nil, Option.some.injEq, Except.ok.injEq]
    constructor
    · intro h; exact ⟨[], List.Forall₂.nil, by simp [concatAll, h]⟩
    · rintro ⟨texts, hf, ht⟩
      cases hf
      simpa [concatAll] using ht.symm
  | cons d ds ih =>
    simp only [List.foldl_cons]
    cases hm : getModule env (join (dirname module.path) d) with
    | error e =>
      have hstep : graphStep env recur module (some (.ok t0)) d = some (.error e) := by
        simp [graphStep, hm]
      rw [hstep, foldl_graphStep_stuck env recur module ds _ (by simp)]
      constructor
      · intro h; simp at h
      · rintro ⟨texts, hf, _⟩
        cases hf with
        | cons hd _ =>
          obtain ⟨md, hmd, _⟩ := hd
          rw [hm] at hmd; cases hmd
    | ok md =>
      rcases hr : recur md d with _ | (e | t1)
      · have hstep : graphStep env recur module (some (.ok t0)) d = none := by
          simp [graphStep, hm, hr]
        rw [hstep, foldl_graphStep_stuck env recur module ds _ (by simp)]
        constructor
        · intro h; simp at h
        · rintro ⟨texts, hf, _⟩
          cases hf with
          | cons hd _ =>
            obtain ⟨md1, hmd, hrec⟩ := hd
            rw [hm] at hmd; cases hmd
            rw [hr] at hrec; cases hrec
      · have hstep : graphStep env recur module (some (.ok t0)) d = some (.error e) := by
          simp [graphStep, hm, hr]
        rw [hstep, foldl_graphStep_stuck env recur module ds _ (by simp)]
        constructor
        · intro h; simp at h
        · rintro ⟨texts, hf, _⟩
          cases hf with
          | cons hd _ =>
            obtain ⟨md1, hmd, hrec⟩ := hd
            rw [hm] at hmd; cases hmd
            rw [hr] at hrec; cases hrec
      · have hstep : graphStep env recur module (some (.ok t0)) d = some (.ok (t0 ++ t1)) := by
          simp [graphStep, hm, hr]
        rw [hstep, ih (t0 ++ t1)]
        constructor
        · rintro ⟨texts, hf, ht⟩
          refine ⟨t1 :: texts, List.Forall₂.cons ⟨md, hm, hr⟩ hf, ?_⟩
          rw [ht, concatAll, String.append_assoc]
        · rintro ⟨texts, hf, ht⟩
          cases hf with
          | cons hd htl =>
            rename_i t2 ts
            obtain ⟨md1, hmd, hrec⟩ := hd
            rw [hm] at hmd; cases hmd
            rw [hr] at hrec; cases hrec
            refine ⟨ts, htl, ?_⟩
            rw [ht, concatAll, String.append_assoc]

/-- C12.  `getGraph` returns a text for a module `m` under a key `k` exactly
when it returns a text for each dependency of `m`, called on the module read
from `join(dirname(m.path), s)` under the key `s`, and the text is then the
entry `'k': <m.code>,` followed by the texts of the dependencies in the order
the specifiers are declared: depth first, a module before its dependencies,
the whole text of one dependency before that of the next. -/
theorem getGraph_text_is_preorder (env : Env) (fuel : Nat) (m : Module) (k text : String) :
    getGraph env (fuel + 1) m k = some (.ok text)
      ↔ ∃ texts : List String,
          List.Forall₂ (fun s t => ∃ md, getModule env (join (dirname m.path) s) = .ok md
            ∧ getGraph env fuel md s = some (.ok t)) m.dependencies texts
          ∧ text = "'" ++ k ++ "': " ++ m.code ++ "," ++ concatAll texts := by
  simp only [getGraph]
  exact foldl_graphStep_ok_iff env (getGraph env fuel) m m.dependencies _ text

/-- C12 at the pair tree: the text for the entry is its own entry followed by
the text for `./a.js`. -/
theorem getGraph_text_is_preorder_witness :
    ∃ texts : List String,
      List.Forall₂ (fun s t => ∃ md,
          getModule (nodeEnv pairFiles) (join (dirname pairIndex.path) s) = .ok md
            ∧ getGraph (nodeEnv pairFiles) 1 md s = some (.ok t)) pairIndex.dependencies texts
        ∧ renderEntries pairEntries
          = "'" ++ "./index.js" ++ "': " ++ pairIndex.code ++ "," ++ concatAll texts :=
  (getGraph_text_is_preorder (nodeEnv pairFiles) 1 pairIndex "./index.js"
    (renderEntries pairEntries)).mp rfl

/-! ## C13: the shape of the artifact -/

/-- C13.  `genBundle` returns an artifact for an entry path `e` exactly when
`getModule` succeeds on `e` and `getGraph` returns a table text for it, and the
artifact is then the fixed text `runtimeHead`, the entry path, the fixed text
`runtimeTail`, the table text between braces, and a closing parenthesis: one
function expression called on the one object literal.  The two fixed texts do
not depend on the graph; the first defines `require` and ends with the start
of the one call `require('`, which occurs once in it and not in the second. -/
theorem artifact_shape (env : Env) (fuel : Nat) (entryPath artifact : String) :
    (genBundle env fuel entryPath = some (.ok artifact)
        ↔ ∃ m table, getModule env entryPath = .ok m
            ∧ getGraph env fuel m entryPath = some (.ok table)
            ∧ artifact = runtimeHead ++ entryPath ++ runtimeTail
                ++ ("\x7b" ++ table ++ "\x7d") ++ ")")
      ∧ countOccurrences runtimeHead "function require(path)" = 1
      ∧ countOccurrences runtimeHead "require('" = 1
      ∧ "require('".data.isSuffixOf runtimeHead.data = true
      ∧ countOccurrences runtimeTail "require(" = 0
      ∧ runtimeHead.data.take 19 = "(function(modules)\x7b".data
      ∧ runtimeTail = "')\n  \x7d)(" := by
  refine ⟨?_, by decide, by decide, by decide, by decide, by decide, rfl⟩
  unfold genBundle
  cases hm : getModule env entryPath with
  | error e => simp
  | ok m =>
    rcases hg : getGraph env fuel m entryPath with _ | (e | table)
    · simp [hg]
    · simp [hg]
    · simp only [hg, Option.some.injEq, Except.ok.injEq, exists_and_left, exists_eq_left']
      have hfixed : runtimeHead ++ entryPath ++ runtimeTail ++ ("\x7b" ++ table ++ "\x7d") ++ ")"
          = "(function(modules)\x7b\n    function require(path)\x7b\n      const module= \x7bexports:\x7b\x7d\x7d\n      modules[path](require,module,module.exports)\n      return module.exports\n    \x7d\n    require('" ++ entryPath ++ "')\n  \x7d)(" ++ ("\x7b" ++ table ++ "\x7d") ++ ")" := rfl
      rw [hfixed]
      exact eq_comm

/-- C13 at the pair tree. -/
theorem artifact_shape_witness :
    ∃ m table, getModule (nodeEnv pairFiles) "./index.js" = .ok m
      ∧ getGraph (nodeEnv pairFiles) 2 m "./index.js" = some (.ok table)
      ∧ pairArtifact = runtimeHead ++ "./index.js" ++ runtimeTail
          ++ ("\x7b" ++ table ++ "\x7d") ++ ")" :=
  (artifact_shape (nodeEnv pairFiles) 2 "./index.js" pairArtifact).1.mp pair_bundle

/-! ## C14: the entry path is a key -/

theorem ownProperty_isSome {α : Type} (table : List (String × α)) (key : String) :
    (ownProperty table key).isSome = true ↔ key ∈ table.map Prod.fst := by
  induction table with
  | nil => simp [ownProperty]
  | cons kv rest ih =>
    rcases kv with ⟨k, v⟩
    simp only [ownProperty, List.map_cons, List.mem_cons]
    cases hr : ownProperty rest key with
    | some w =>
      have : key ∈ rest.map Prod.fst := ih.mp (by simp [hr])
      simp [this]
    | none =>
      have hnot : key ∉ rest.map Prod.fst := by
        intro hmem
        have := ih.mpr hmem
        simp [hr] at this
      by_cases hk : k = key
      · simp [hk]
      · have hk2 : ¬ key = k := fun h => hk h.symm
        simp [hk, hk2, hnot]

theorem lookupModule_isSome (entries : List Entry) (key : String) :
    (lookupModule entries key).isSome = true ↔ key ∈ keysOf entries := by
  unfold lookupModule keysOf
  rw [ownProperty_isSome]
  simp [List.map_map, Function.comp_def]

/-- C14.  Whenever `genBundle` returns an artifact, the entry path is a key of
its table: it is the key of the first entry, and looking it up finds an
entry. -/
theorem entry_path_is_key (env : Env) (fuel : Nat) (entryPath artifact : String)
    (h : genBundle env fuel entryPath = some (.ok artifact)) :
    ∃ entries, (traverseBundle env fuel entryPath).result = some (.ok entries)
      ∧ artifact = bundleText entryPath (renderEntries entries)
      ∧ (keysOf entries).head? = some entryPath
      ∧ entryPath ∈ keysOf entries
      ∧ (lookupModule entries entryPath).isSome = true := by
  obtain ⟨m, rest, _, hrun, hart, _⟩ := genBundle_inv env fuel entryPath artifact h
  have hmem : entryPath ∈ keysOf (⟨entryPath, m⟩ :: rest) := by simp [keysOf]
  exact ⟨⟨entryPath, m⟩ :: rest, by rw [hrun], hart, rfl, hmem,
    (lookupModule_isSome _ _).mpr hmem⟩

/-- C14 at the diamond tree. -/
theorem entry_path_is_key_witness :
    genBundle (nodeEnv diamondFiles) 3 "./index.js" = some (.ok diamondArtifact)
      ∧ ∃ entries, (traverseBundle (nodeEnv diamondFiles) 3 "./index.js").result
            = some (.ok entries)
          ∧ diamondArtifact = bundleText "./index.js" (renderEntries entries)
          ∧ (keysOf entries).head? = some "./index.js"
          ∧ "./index.js" ∈ keysOf entries
          ∧ (lookupModule entries "./index.js").isSome = true :=
  ⟨diamond_bundle, entry_path_is_key (nodeEnv diamondFiles) 3 "./index.js" diamondArtifact
    diamond_bundle⟩

/-! ## C16: determinism -/

theorem foldl_traceStep_congr (env : Env) (recur1 recur2 : Module → String → Trace)
    (hrec : ∀ md d r, (recur1 md d).result = some r → recur2 md d = recur1 md d)
    (module : Module) (deps : List String) (acc : Trace)
    (h : (deps.foldl (traceStep env recur1 module) acc).result ≠ none) :
    deps.foldl (traceStep env recur2 module) acc
      = deps.foldl (traceStep env recur1 module) acc := by
  induction deps generalizing acc with
  | nil => rfl
  | cons d ds ih =>
    simp only [List.foldl_cons] at h ⊢
    have hstep : traceStep env recur2 module acc d = traceStep env recur1 module acc d := by
      rcases acc with ⟨calls, result⟩
      rcases result with _ | (e0 | es)
      · simp [traceStep]
      · simp [traceStep]
      · simp only [traceStep]
        cases hm : getModule env (join (dirname module.path) d) with
        | error e => rfl
        | ok md =>
          simp only []
          rcases hr : (recur1 md d).result with _ | r
          · exfalso
            apply h
            have hs : traceStep env recur1 module ⟨calls, some (.ok es)⟩ d
                = ⟨calls ++ join (dirname module.path) d :: (recur1 md d).calls, none⟩ := by
              simp [traceStep, hm, hr]
            rw [hs, foldl_traceStep_stuck env recur1 module ds _ (by simp)]
          · rw [hrec md d r hr, hr]
    rw [hstep]
    exact ih _ (by rw [← hstep]; rw [hstep]; exact h)

theorem traverseGraph_succ (env : Env) (fuel : Nat) (m : Module) (k : String)
    (r : Except Error (List Entry)) (h : (traverseGraph env fuel m k).result = some r) :
    traverseGraph env (fuel + 1) m k = traverseGraph env fuel m k := by
  induction fuel generalizing m k r with
  | zero => simp [traverseGraph] at h
  | succ n ih =>
    rw [traverseGraph, traverseGraph]
    apply foldl_traceStep_congr env (traverseGraph env n) (traverseGraph env (n + 1))
    · intro md d r1 hr1
      exact ih md d r1 hr1
    · have h1 : (traverseGraph env (n + 1) m k).result ≠ none := by rw [h]; simp
      simpa [traverseGraph] using h1

theorem traverseGraph_mono (env : Env) (fuel extra : Nat) (m : Module) (k : String)
    (r : Except Error (List Entry)) (h : (traverseGraph env fuel m k).result = some r) :
    traverseGraph env (fuel + extra) m k = traverseGraph env fuel m k := by
  induction extra with
  | zero => rfl
  | succ j ih =>
    rw [← Nat.add_assoc, traverseGraph_succ env (fuel + j) m k r (by rw [ih]; exact h), ih]

theorem traverseBundle_mono (env : Env) (fuel extra : Nat) (entryPath : String)
    (r : Except Error (List Entry)) (h : (traverseBundle env fuel entryPath).result = some r) :
    traverseBundle env (fuel + extra) entryPath = traverseBundle env fuel entryPath := by
  unfold traverseBundle at h ⊢
  cases hm : getModule env entryPath with
  | error e => rfl
  | ok m =>
    simp only [hm] at h ⊢
    rw [traverseGraph_mono env fuel extra m entryPath r h]

theorem traverseBundle_fuel_irrelevant (env : Env) (f1 f2 : Nat) (entryPath : String)
    (r1 r2 : Except Error (List Entry))
    (h1 : (traverseBundle env f1 entryPath).result = some r1)
    (h2 : (traverseBundle env f2 entryPath).result = some r2) :
    traverseBundle env f1 entryPath = traverseBundle env f2 entryPath := by
  rcases Nat.le_total f1 f2 with hle | hle
  · obtain ⟨j, rfl⟩ := Nat.exists_eq_add_of_le hle
    exact (traverseBundle_mono env f1 j entryPath r1 h1).symm
  · obtain ⟨j, rfl⟩ := Nat.exists_eq_add_of_le hle
    exact traverseBundle_mono env f2 j entryPath r2 h2

theorem genBundle_some_iff (env : Env) (fuel : Nat) (entryPath : String)
    (r : Except Error String) (h : genBundle env fuel entryPath = some r) :
    ∃ r1, (traverseBundle env fuel entryPath).result = some r1 := by
  rw [genBundle_eq_render] at h
  rcases hr : (traverseBundle env fuel entryPath).result with _ | r1
  · rw [hr] at h; simp at h
  · exact ⟨r1, rfl⟩

theorem getModule_of_content (env : Env) (fs2 : String → Except Error String)
    (p p2 content : String) (m m2 : Module)
    (hc : env.readFileSync p = .ok content) (hc2 : fs2 p2 = .ok content)
    (hm : getModule env p = .ok m)
    (hm2 : getModule { env with readFileSync := fs2 } p2 = .ok m2) :
    m.code = m2.code ∧ m.dependencies = m2.dependencies := by
  simp only [getModule, hc, hc2] at hm hm2
  cases hp : env.parse content with
  | error e => simp [hp] at hm
  | ok ast =>
    simp only [hp] at hm hm2
    cases ht : env.transform ast with
    | error e => simp [ht] at hm
    | ok es5 =>
      simp only [ht, Except.ok.injEq] at hm hm2
      subst hm; subst hm2
      exact ⟨rfl, rfl⟩

/-- C16.  Two runs of `genBundle` on the same file tree and entry path that
both return, whatever their recursion budgets, return the same result and
leave the same calls and the same table: the same keys with the same modules,
so the same dependency specifiers per module.  And the factory code emitted
for a path, like its dependency specifiers, is a function of the content of
that file alone: two entries, of two builds over two file systems with the
same Babel, from any entry paths, whose modules were read from files with the
same content hold the same code and the same specifiers, whatever imported
them and whatever the other files are. -/
theorem build_is_deterministic (env : Env) (entryPath : String) :
    (∀ f1 f2 r1 r2, genBundle env f1 entryPath = some r1 → genBundle env f2 entryPath = some r2 →
        r1 = r2 ∧ traverseBundle env f1 entryPath = traverseBundle env f2 entryPath)
      ∧ (∀ (fs2 : String → Except Error String) (entryPath2 : String) (f1 f2 : Nat)
          (artifact artifact2 content : String) (entries entries2 : List Entry) (e e2 : Entry),
          genBundle env f1 entryPath = some (.ok artifact) →
          (traverseBundle env f1 entryPath).result = some (.ok entries) →
          genBundle { env with readFileSync := fs2 } f2 entryPath2 = some (.ok artifact2) →
          (traverseBundle { env with readFileSync := fs2 } f2 entryPath2).result
            = some (.ok entries2) →
          e ∈ entries → e2 ∈ entries2 →
          env.readFileSync e.module.path = .ok content → fs2 e2.module.path = .ok content →
          e.module.code = e2.module.code ∧ e.module.dependencies = e2.module.dependencies) := by
  refine ⟨?_, ?_⟩
  · intro f1 f2 r1 r2 h1 h2
    obtain ⟨t1, ht1⟩ := genBundle_some_iff env f1 entryPath r1 h1
    obtain ⟨t2, ht2⟩ := genBundle_some_iff env f2 entryPath r2 h2
    have heq := traverseBundle_fuel_irrelevant env f1 f2 entryPath t1 t2 ht1 ht2
    refine ⟨?_, heq⟩
    rw [genBundle_eq_render] at h1 h2
    rw [heq] at h1
    rw [h1] at h2
    exact Option.some.inj h2
  · intro fs2 entryPath2 f1 f2 artifact artifact2 content entries entries2 e e2 h1 ht1 h2 ht2
      he he2 hc hc2
    obtain ⟨m, rest, hm, hrun, _, inv⟩ := genBundle_inv env f1 entryPath artifact h1
    obtain ⟨m2, rest2, hm2, hrun2, _, inv2⟩ :=
      genBundle_inv { env with readFileSync := fs2 } f2 entryPath2 artifact2 h2
    rw [hrun] at ht1
    rw [hrun2] at ht2
    simp only [Option.some.injEq, Except.ok.injEq] at ht1 ht2
    subst ht1; subst ht2
    have hg : getModule env e.module.path = .ok e.module := by
      rcases List.mem_cons.mp he with rfl | he1
      · simpa [getModule_path hm] using hm
      · exact inv.genuine e he1
    have hg2 : getModule { env with readFileSync := fs2 } e2.module.path = .ok e2.module := by
      rcases List.mem_cons.mp he2 with rfl | he1
      · simpa [getModule_path hm2] using hm2
      · exact inv2.genuine e2 he1
    exact getModule_of_content env fs2 _ _ content _ _ hc hc2 hg hg2

/-- C16 at the diamond tree: the runs with budgets 3 and 5 both return, so
they leave the same calls and the same table. -/
theorem build_is_deterministic_witness :
    genBundle (nodeEnv diamondFiles) 3 "./index.js" = some (.ok diamondArtifact)
      ∧ genBundle (nodeEnv diamondFiles) 5 "./index.js" = some (.ok diamondArtifact)
      ∧ traverseBundle (nodeEnv diamondFiles) 3 "./index.js"
          = traverseBundle (nodeEnv diamondFiles) 5 "./index.js" :=
  have h5 : genBundle (nodeEnv diamondFiles) 5 "./index.js" = some (.ok diamondArtifact) := by
    rw [genBundle_eq_render]; rfl
  ⟨diamond_bundle, h5,
    ((build_is_deterministic (nodeEnv diamondFiles) "./index.js").1 3 5 _ _
      diamond_bundle h5).2⟩

/-! ## C19: the quoted paths -/

theorem readStringChars_plain (cs rest : List Char)
    (h : ∀ c ∈ cs, c ≠ quoteChar ∧ c ≠ backslashChar ∧ c ∉ lineTerminators) :
    readStringChars .plain (cs ++ quoteChar :: rest) = some (cs, rest) := by
  induction cs with
  | nil => simp [readStringChars]
  | cons c cs ih =>
    obtain ⟨hq, hb, hl⟩ := h c (List.mem_cons_self _ _)
    have hlf : c ≠ Char.ofNat 10 := fun hc => hl (by rw [hc]; decide)
    have hcr : c ≠ Char.ofNat 13 := fun hc => hl (by rw [hc]; decide)
    have ih1 := ih (fun d hd => h d (List.mem_cons_of_mem _ hd))
    simp only [List.cons_append, readStringChars, hq, hb, hlf, hcr, if_false, or_self,
      List.append_eq, and_false]
    rw [ih1]

theorem readSingleQuoted_plain (path : String) (rest : List Char)
    (h : ∀ c ∈ path.data, c ≠ quoteChar ∧ c ≠ backslashChar ∧ c ∉ lineTerminators) :
    readSingleQuoted (("'" ++ path ++ "'").data ++ rest) = some (path, rest) := by
  have hq : ("'" : String).data = [quoteChar] := by decide
  have hdata : ("'" ++ path ++ "'").data ++ rest = quoteChar :: (path.data ++ quoteChar :: rest) := by
    rw [String.data_append, String.data_append, hq]
    simp
  rw [hdata]
  simp only [readSingleQuoted, if_true, readStringChars_plain path.data rest h]

/-- C19.  The key of a table entry and the argument of the initial `require`
are written as the path itself between two single quotes, nothing escaped.
For a path without single quote, backslash or line terminator, reading the
single-quoted literal back as a JavaScript string gives exactly the path and
leaves the text that follows it: the colon and the factory for a key, the
closing parenthesis of the call for the entry path. -/
theorem quoted_path_reads_back (path : String)
    (h : ∀ c ∈ path.data, c ≠ quoteChar ∧ c ≠ backslashChar ∧ c ∉ lineTerminators) :
    (∀ m : Module,
        renderEntry ⟨path, m⟩ = "'" ++ path ++ "'" ++ (": " ++ m.code ++ ",")
          ∧ readSingleQuoted (renderEntry ⟨path, m⟩).data
              = some (path, (": " ++ m.code ++ ",").data))
      ∧ (∀ table : String,
          bundleText path table
              = callPrefix ++ ("'" ++ path ++ "'")
                  ++ (")\n  \x7d)(" ++ ("\x7b" ++ table ++ "\x7d") ++ ")")
            ∧ (bundleText path table).data.take callPrefix.length = callPrefix.data
            ∧ readSingleQuoted ((bundleText path table).data.drop callPrefix.length)
                = some (path, (")\n  \x7d)(" ++ ("\x7b" ++ table ++ "\x7d") ++ ")").data)) := by
  refine ⟨?_, ?_⟩
  · intro m
    have heq : renderEntry ⟨path, m⟩ = "'" ++ path ++ "'" ++ (": " ++ m.code ++ ",") := by
      simp only [renderEntry]
      have h1 : ("': " : String) = "'" ++ ": " := by decide
      rw [h1]
      simp only [String.append_assoc]
    refine ⟨heq, ?_⟩
    rw [heq, String.data_append]
    exact readSingleQuoted_plain path _ h
  · intro table
    have heq : bundleText path table
        = callPrefix ++ ("'" ++ path ++ "'")
            ++ (")\n  \x7d)(" ++ ("\x7b" ++ table ++ "\x7d") ++ ")") := by
      have h0 : bundleText path table
          = runtimeHead ++ path ++ runtimeTail ++ ("\x7b" ++ table ++ "\x7d") ++ ")" := rfl
      have h1 : runtimeHead = callPrefix ++ "'" := by
        set_option maxRecDepth 4096 in decide
      have h2 : runtimeTail = "'" ++ ")\n  \x7d)(" := by decide
      rw [h0, h1, h2]
      simp only [String.append_assoc]
    have hlen : callPrefix.length = callPrefix.data.length := rfl
    refine ⟨heq, ?_, ?_⟩
    · rw [heq, hlen]
      simp only [String.data_append, List.append_assoc, List.take_left']
    · rw [heq, hlen]
      simp only [String.data_append, List.append_assoc, List.drop_left']
      have := readSingleQuoted_plain path
        (")\n  \x7d)(" ++ ("\x7b" ++ table ++ "\x7d") ++ ")").data h
      simpa only [String.data_append, List.append_assoc] using this

/-- C19 at the path `./index.js`, and next to it a key with a single quote,
which is not read back: `'a'b'` reads as `a`. -/
theorem quoted_path_reads_back_witness :
    (∀ m : Module,
        renderEntry ⟨"./index.js", m⟩ = "'" ++ "./index.js" ++ "'" ++ (": " ++ m.code ++ ",")
          ∧ readSingleQuoted (renderEntry ⟨"./index.js", m⟩).data
              = some ("./index.js", (": " ++ m.code ++ ",").data))
      ∧ readSingleQuoted (renderEntry ⟨"a'b", ⟨"a'b", [], "f"⟩⟩).data
          = some ("a", "b': f,".data) :=
  ⟨(quoted_path_reads_back "./index.js" (by decide)).1, by decide⟩

/-! ## C18: the table unfolds the import tree -/

theorem chains_of_subs (env : Env) (m : Module) (deps : List String) (subs : List SubRun)
    (h : List.Forall₂ (fun d x => ∃ chains : List (List Nat × String), chains.Nodup
      ∧ (∀ c q, (c, q) ∈ chains ↔ ImportChain env (resolveDep m d) c q)
      ∧ x.module.path :: x.calls = chains.map Prod.snd) deps subs) :
    ∀ j : Nat, ∃ chains : List (List Nat × String), chains.Nodup
      ∧ (∀ c q, (c, q) ∈ chains ↔ ∃ i c1 s, c = (j + i) :: c1 ∧ deps[i]? = some s
          ∧ ImportChain env (resolveDep m s) c1 q)
      ∧ subs.flatMap (fun x => x.module.path :: x.calls) = chains.map Prod.snd := by
  induction h with
  | nil =>
    intro j
    refine ⟨[], List.nodup_nil, ?_, rfl⟩
    intro c q
    simp
  | @cons d x ds xs hx _ ih =>
    intro j
    obtain ⟨cx, hnx, hix, hsx⟩ := hx
    obtain ⟨cr, hnr, hir, hsr⟩ := ih (j + 1)
    refine ⟨cx.map (fun t => (j :: t.1, t.2)) ++ cr, ?_, ?_, ?_⟩
    · refine List.Nodup.append ?_ hnr ?_
      · refine hnx.map ?_
        intro a b hab
        simp only [Prod.mk.injEq, List.cons.injEq, true_and] at hab
        exact Prod.ext hab.1 hab.2
      · intro t ht1 ht2
        obtain ⟨t0, _, rfl⟩ := List.mem_map.mp ht1
        obtain ⟨i, c1, s, hc, _, _⟩ := (hir _ _).mp ht2
        simp only [List.cons.injEq] at hc
        omega
    · intro c q
      rw [List.mem_append, List.mem_map]
      constructor
      · rintro (⟨t, ht, heq⟩ | hr)
        · simp only [Prod.mk.injEq] at heq
          obtain ⟨rfl, rfl⟩ := heq
          exact ⟨0, t.1, d, rfl, List.getElem?_cons_zero, (hix t.1 t.2).mp ht⟩
        · obtain ⟨i, c1, s, hc, hs, hchain⟩ := (hir c q).mp hr
          refine ⟨i + 1, c1, s, ?_, by simpa using hs, hchain⟩
          rw [hc]; congr 1; omega
      · rintro ⟨i, c1, s, hc, hs, hchain⟩
        cases i with
        | zero =>
          simp only [List.getElem?_cons_zero, Option.some.injEq] at hs
          subst hs
          exact Or.inl ⟨(c1, q), (hix c1 q).mpr hchain, by simp [hc]⟩
        | succ i =>
          simp only [List.getElem?_cons_succ] at hs
          refine Or.inr ((hir c q).mpr ⟨i, c1, s, ?_, hs, hchain⟩)
          rw [hc]; congr 1; omega
    · simp only [List.flatMap_cons, List.map_append, List.map_map, hsr, hsx]
      congr 1

theorem chains_of_module (env : Env) (fuel : Nat) (m : Module) (k : String)
    (calls : List String) (es : List Entry)
    (h : traverseGraph env fuel m k = ⟨calls, some (.ok es)⟩) :
    getModule env m.path = .ok m →
      ∃ chains : List (List Nat × String), chains.Nodup
        ∧ (∀ c q, (c, q) ∈ chains ↔ ImportChain env m.path c q)
        ∧ m.path :: calls = chains.map Prod.snd := by
  refine traverseGraph_induct env
    (fun m _ calls _ => getModule env m.path = .ok m →
      ∃ chains : List (List Nat × String), chains.Nodup
        ∧ (∀ c q, (c, q) ∈ chains ↔ ImportChain env m.path c q)
        ∧ m.path :: calls = chains.map Prod.snd) ?_ fuel m k calls es h
  intro m k subs hsubs hm
  have hsubs1 : List.Forall₂ (fun d x => ∃ chains : List (List Nat × String), chains.Nodup
      ∧ (∀ c q, (c, q) ∈ chains ↔ ImportChain env (resolveDep m d) c q)
      ∧ x.module.path :: x.calls = chains.map Prod.snd) m.dependencies subs := by
    refine hsubs.imp ?_
    rintro d x ⟨hmx, hP⟩
    have hpath : x.module.path = resolveDep m d := getModule_path hmx
    have := hP (by rw [hpath]; exact hmx)
    rw [hpath] at this
    rw [hpath]
    exact this
  obtain ⟨chains, hn, hi, hs⟩ := chains_of_subs env m m.dependencies subs hsubs1 0
  refine ⟨([], m.path) :: chains, ?_, ?_, ?_⟩
  · refine List.nodup_cons.mpr ⟨?_, hn⟩
    intro hmem
    obtain ⟨i, c1, s, hc, _, _⟩ := (hi _ _).mp hmem
    cases hc
  · intro c q
    rw [List.mem_cons]
    constructor
    · rintro (heq | hmem)
      · simp only [Prod.mk.injEq] at heq
        obtain ⟨rfl, rfl⟩ := heq
        exact ImportChain.here _
      · obtain ⟨i, c1, s, hc, hs1, hchain⟩ := (hi c q).mp hmem
        rw [hc, Nat.zero_add]
        exact ImportChain.step hm hs1 hchain
    · intro hchain
      cases hchain with
      | here => exact Or.inl rfl
      | step hm1 hs1 hrest =>
        rename_i m1 s i c1
        rw [hm] at hm1
        cases hm1
        exact Or.inr ((hi _ _).mpr ⟨i, c1, s, by rw [Nat.zero_add], hs1, hrest⟩)
  · rw [List.map_cons, hs]

theorem count_map_snd (chains : List (List Nat × String)) (q : String) :
    (chains.map Prod.snd).count q = chains.countP (fun x => x.2 = q) := by
  induction chains with
  | nil => rfl
  | cons x xs ih =>
    simp only [List.map_cons, List.count_cons, List.countP_cons, ih]
    simp

/-- C18.  Whenever `genBundle` returns an artifact, the entries of its table,
in order, are the import chains that start at the entry, each chain once: the
chains, as lists of the positions of the import declarations followed, form a
list without repetition whose end paths are the paths of the entries and the
calls of `getModule`.  So the table has as many entries as there are chains,
and a file at which `k` chains end has `k` entries and is read `k` times. -/
theorem table_unfolds_import_tree (env : Env) (fuel : Nat) (entryPath artifact : String)
    (h : genBundle env fuel entryPath = some (.ok artifact)) :
    ∃ entries, (traverseBundle env fuel entryPath).result = some (.ok entries)
      ∧ artifact = bundleText entryPath (renderEntries entries)
      ∧ ∃ chains : List (List Nat × String), chains.Nodup
        ∧ (∀ c q, (c, q) ∈ chains ↔ ImportChain env entryPath c q)
        ∧ pathsOf entries = chains.map Prod.snd
        ∧ (traverseBundle env fuel entryPath).calls = chains.map Prod.snd
        ∧ entries.length = chains.length
        ∧ ∀ q, entriesFor q entries = chains.countP (fun x => x.2 = q)
            ∧ (traverseBundle env fuel entryPath).calls.count q
                = chains.countP (fun x => x.2 = q) := by
  obtain ⟨m, rest, hm, hrun, hart, inv⟩ := genBundle_inv env fuel entryPath artifact h
  have hpath : m.path = entryPath := getModule_path hm
  have hgraph : traverseGraph env fuel m entryPath
      = ⟨pathsOf rest, some (.ok (⟨entryPath, m⟩ :: rest))⟩ := by
    have := hrun
    unfold traverseBundle at this
    simp only [hm, Trace.mk.injEq, List.cons.injEq, true_and] at this
    rcases ht : traverseGraph env fuel m entryPath with ⟨c, r⟩
    rw [ht] at this
    simp only at this
    rw [this.1, this.2]
  obtain ⟨chains, hn, hi, hs⟩ :=
    chains_of_module env fuel m entryPath _ _ hgraph (by rw [hpath]; exact hm)
  rw [hpath] at hi hs
  have hpaths : pathsOf (⟨entryPath, m⟩ :: rest) = chains.map Prod.snd := by
    rw [← hs]; simp [pathsOf, hpath]
  refine ⟨⟨entryPath, m⟩ :: rest, by rw [hrun], hart, chains, hn, hi, hpaths,
    by rw [hrun]; exact hs, ?_, ?_⟩
  · have := congrArg List.length hpaths
    simpa [pathsOf] using this
  · intro q
    refine ⟨?_, ?_⟩
    · rw [← count_pathsOf, hpaths, count_map_snd]
    · rw [hrun]
      show (entryPath :: pathsOf rest).count q = _
      rw [hs, count_map_snd]

/-- C18 at the diamond tree: five entries for five chains, two of which end at
`c.js`. -/
theorem table_unfolds_import_tree_witness :
    genBundle (nodeEnv diamondFiles) 3 "./index.js" = some (.ok diamondArtifact)
      ∧ entriesFor "c.js" diamondEntries = 2
      ∧ ∃ entries, (traverseBundle (nodeEnv diamondFiles) 3 "./index.js").result
            = some (.ok entries)
          ∧ diamondArtifact = bundleText "./index.js" (renderEntries entries)
          ∧ ∃ chains : List (List Nat × String), chains.Nodup
            ∧ (∀ c q, (c, q) ∈ chains ↔ ImportChain (nodeEnv diamondFiles) "./index.js" c q)
            ∧ pathsOf entries = chains.map Prod.snd
            ∧ (traverseBundle (nodeEnv diamondFiles) 3 "./index.js").calls
                = chains.map Prod.snd
            ∧ entries.length = chains.length
            ∧ ∀ q, entriesFor q entries = chains.countP (fun x => x.2 = q)
                ∧ (traverseBundle (nodeEnv diamondFiles) 3 "./index.js").calls.count q
                    = chains.countP (fun x => x.2 = q) :=
  ⟨diamond_bundle, by decide,
    table_unfolds_import_tree (nodeEnv diamondFiles) 3 "./index.js" diamondArtifact
      diamond_bundle⟩

/-! ## Segments and normalization -/

theorem splitSlash_ne_nil (x : List Char) : splitSlash x ≠ [] := by
  cases x with
  | nil => simp [splitSlash]
  | cons c cs =>
    simp only [splitSlash]
    split
    · simp
    · split <;> simp

theorem splitSlash_append_slash (x y : List Char) :
    splitSlash (x ++ '/' :: y) = splitSlash x ++ splitSlash y := by
  induction x with
  | nil => simp [splitSlash]
  | cons c cs ih =>
    by_cases hc : c = '/'
    · simp [splitSlash, hc, ih]
    · simp only [List.cons_append, splitSlash, hc, if_false, List.append_eq]
      rw [ih]
      cases hs : splitSlash cs with
      | nil => exact absurd hs (splitSlash_ne_nil cs)
      | cons s ss => simp

theorem splitSlash_no_slash (x : List Char) : ∀ seg ∈ splitSlash x, '/' ∉ seg := by
  induction x with
  | nil => intro seg hseg; simp [splitSlash] at hseg; simp [hseg]
  | cons c cs ih =>
    intro seg hseg
    by_cases hc : c = '/'
    · simp only [splitSlash, hc, if_true, List.mem_cons] at hseg
      rcases hseg with rfl | hseg
      · simp
      · exact ih seg hseg
    · simp only [splitSlash, hc, if_false] at hseg
      cases hs : splitSlash cs with
      | nil => exact absurd hs (splitSlash_ne_nil cs)
      | cons s ss =>
        rw [hs] at hseg ih
        simp only [List.mem_cons] at hseg
        rcases hseg with rfl | hseg
        · have := ih s (List.mem_cons_self _ _)
          simp only [List.mem_cons, not_or]
          exact ⟨fun h => hc h.symm, this⟩
        · exact ih seg (List.mem_cons_of_mem _ hseg)

theorem splitSlash_of_no_slash (s : List Char) (h : '/' ∉ s) : splitSlash s = [s] := by
  induction s with
  | nil => rfl
  | cons c cs ih =>
    simp only [List.mem_cons, not_or] at h
    have hc : c ≠ '/' := fun hc => h.1 hc.symm
    simp [splitSlash, hc, ih h.2]

theorem splitSlash_joinSegs (segs : List (List Char)) (hne : segs ≠ [])
    (h : ∀ seg ∈ segs, '/' ∉ seg) : splitSlash (joinSegs segs) = segs := by
  induction segs with
  | nil => exact absurd rfl hne
  | cons s rest ih =>
    cases rest with
    | nil => simpa [joinSegs] using splitSlash_of_no_slash s (h s (List.mem_cons_self _ _))
    | cons u more =>
      simp only [joinSegs]
      rw [splitSlash_append_slash, splitSlash_of_no_slash s (h s (List.mem_cons_self _ _)),
        ih (by simp) (fun seg hseg => h seg (List.mem_cons_of_mem _ hseg))]
      rfl

theorem normalizeSegs_skip (b : Bool) (seg : List Char) (segs res : List (List Char))
    (h : seg = [] ∨ seg = ['.']) :
    normalizeSegs b (seg :: segs) res = normalizeSegs b segs res := by
  simp [normalizeSegs, h]

theorem normalizeSegs_push (b : Bool) (seg : List Char) (segs res : List (List Char))
    (h1 : seg ≠ []) (h2 : seg ≠ ['.']) (h3 : seg ≠ ['.', '.']) :
    normalizeSegs b (seg :: segs) res = normalizeSegs b segs (seg :: res) := by
  simp [normalizeSegs, h1, h2, h3]

theorem normalizeSegs_up_nil (b : Bool) (segs : List (List Char)) :
    normalizeSegs b (['.', '.'] :: segs) []
      = normalizeSegs b segs (if b then [['.', '.']] else []) := by
  simp [normalizeSegs]

theorem normalizeSegs_up_up (b : Bool) (segs below : List (List Char)) :
    normalizeSegs b (['.', '.'] :: segs) (['.', '.'] :: below)
      = normalizeSegs b segs
          (if b then ['.', '.'] :: ['.', '.'] :: below else ['.', '.'] :: below) := by
  simp [normalizeSegs]

theorem normalizeSegs_up_pop (b : Bool) (segs below : List (List Char)) (top : List Char)
    (h : top ≠ ['.', '.']) :
    normalizeSegs b (['.', '.'] :: segs) (top :: below) = normalizeSegs b segs below := by
  simp [normalizeSegs, h]

theorem segment_cases (seg : List Char) :
    (seg = [] ∨ seg = ['.']) ∨ seg = ['.', '.']
      ∨ (seg ≠ [] ∧ seg ≠ ['.'] ∧ seg ≠ ['.', '.']) := by
  by_cases h1 : seg = []
  · exact Or.inl (Or.inl h1)
  · by_cases h2 : seg = ['.']
    · exact Or.inl (Or.inr h2)
    · by_cases h3 : seg = ['.', '.']
      · exact Or.inr (Or.inl h3)
      · exact Or.inr (Or.inr ⟨h1, h2, h3⟩)

theorem normalizeSegs_append (b : Bool) (xs ys res : List (List Char)) :
    normalizeSegs b (xs ++ ys) res = normalizeSegs b ys (normalizeSegs b xs res) := by
  induction xs generalizing res with
  | nil => rfl
  | cons seg segs ih =>
    rw [List.cons_append]
    rcases segment_cases seg with h | h | ⟨h1, h2, h3⟩
    · rw [normalizeSegs_skip b seg _ res h, normalizeSegs_skip b seg _ res h, ih]
    · subst h
      cases res with
      | nil => rw [normalizeSegs_up_nil, normalizeSegs_up_nil, ih]
      | cons top below =>
        by_cases ht : top = ['.', '.']
        · subst ht
          rw [normalizeSegs_up_up, normalizeSegs_up_up, ih]
        · rw [normalizeSegs_up_pop b _ _ top ht, normalizeSegs_up_pop b _ _ top ht, ih]
    · rw [normalizeSegs_push b seg _ res h1 h2 h3, normalizeSegs_push b seg _ res h1 h2 h3, ih]

theorem normalizeSegs_subset (b : Bool) (xs res : List (List Char)) :
    ∀ seg ∈ normalizeSegs b xs res, seg ∈ xs ∨ seg ∈ res := by
  induction xs generalizing res with
  | nil => intro seg h; exact Or.inr h
  | cons x segs ih =>
    intro seg hseg
    have lift : ∀ res1, (∀ t ∈ res1, t = x ∨ t ∈ res) → seg ∈ normalizeSegs b segs res1 →
        seg ∈ x :: segs ∨ seg ∈ res := by
      intro res1 hres1 hmem
      rcases ih res1 seg hmem with h | h
      · exact Or.inl (List.mem_cons_of_mem _ h)
      · rcases hres1 seg h with h | h
        · exact Or.inl (by rw [h]; exact List.mem_cons_self _ _)
        · exact Or.inr h
    rcases segment_cases x with h | h | ⟨h1, h2, h3⟩
    · rw [normalizeSegs_skip b x _ res h] at hseg
      exact lift res (fun t ht => Or.inr ht) hseg
    · subst h
      cases res with
      | nil =>
        rw [normalizeSegs_up_nil] at hseg
        refine lift _ ?_ hseg
        intro t ht
        cases b <;> simp at ht
        exact Or.inl ht
      | cons top below =>
        by_cases ht : top = ['.', '.']
        · subst ht
          rw [normalizeSegs_up_up] at hseg
          refine lift _ ?_ hseg
          intro t ht
          cases b
          · exact Or.inr (by simpa using ht)
          · simp only [if_true, List.mem_cons] at ht
            rcases ht with h | h | h
            · exact Or.inl h
            · exact Or.inl h
            · exact Or.inr (List.mem_cons_of_mem _ h)
        · rw [normalizeSegs_up_pop b _ _ top ht] at hseg
          exact lift below (fun t ht => Or.inr (List.mem_cons_of_mem _ ht)) hseg
    · rw [normalizeSegs_push b x _ res h1 h2 h3] at hseg
      refine lift _ ?_ hseg
      intro t ht
      rcases List.mem_cons.mp ht with h | h
      · exact Or.inl h
      · exact Or.inr h

theorem normalizeSegs_up_stays (b : Bool) (xs res : List (List Char))
    (h : ['.', '.'] ∈ res) : ['.', '.'] ∈ normalizeSegs b xs res := by
  induction xs generalizing res with
  | nil => exact h
  | cons x segs ih =>
    rcases segment_cases x with hx | hx | ⟨h1, h2, h3⟩
    · rw [normalizeSegs_skip b x _ res hx]; exact ih res h
    · subst hx
      cases res with
      | nil => cases h
      | cons top below =>
        by_cases ht : top = ['.', '.']
        · subst ht
          rw [normalizeSegs_up_up]
          apply ih
          cases b <;> simp
        · rw [normalizeSegs_up_pop b _ _ top ht]
          apply ih
          rcases List.mem_cons.mp h with h | h
          · exact absurd h.symm ht
          · exact h
    · rw [normalizeSegs_push b x _ res h1 h2 h3]
      exact ih _ (List.mem_cons_of_mem _ h)

theorem normalizeSegs_below_root (xs res root : List (List Char))
    (h : ['.', '.'] ∉ normalizeSegs true xs res) :
    normalizeSegs false xs (res ++ root) = normalizeSegs true xs res ++ root := by
  induction xs generalizing res with
  | nil => rfl
  | cons x segs ih =>
    rcases segment_cases x with hx | hx | ⟨h1, h2, h3⟩
    · rw [normalizeSegs_skip _ x _ _ hx] at h ⊢
      rw [normalizeSegs_skip _ x _ _ hx]
      exact ih res h
    · subst hx
      cases res with
      | nil =>
        rw [normalizeSegs_up_nil] at h
        exact absurd (normalizeSegs_up_stays true segs _ (by simp)) h
      | cons top below =>
        by_cases ht : top = ['.', '.']
        · subst ht
          rw [normalizeSegs_up_up] at h
          exact absurd (normalizeSegs_up_stays true segs _ (by simp)) h
        · rw [normalizeSegs_up_pop _ _ _ top ht] at h ⊢
          rw [List.cons_append, normalizeSegs_up_pop _ _ _ top ht]
          exact ih below h
    · rw [normalizeSegs_push _ x _ _ h1 h2 h3] at h ⊢
      rw [normalizeSegs_push _ x _ _ h1 h2 h3]
      exact ih (x :: res) h

/-! ## C15: the same file, the same path -/

theorem data_slash_append (d s : String) :
    (d ++ "/" ++ s).data = d.data ++ '/' :: s.data := by
  have h : ("/" : String).data = ['/'] := rfl
  rw [String.data_append, String.data_append, h]
  simp

theorem join_of_nonempty (d s : String) (hd : d.data ≠ []) (hs : s.data ≠ []) :
    join d s = normalize (d ++ "/" ++ s) := by
  simp [join, hd, hs]

theorem normalize_relative (p : String) (c0 : Char) (tl : List Char) (hp : p.data = c0 :: tl)
    (hc : c0 ≠ '/') :
    normalize p
      = if (joinSegs (normalizeSegs true (splitSlash p.data) []).reverse).isEmpty then
          (if p.data.getLast? = some '/' then "./" else ".")
        else if p.data.getLast? = some '/' then
          String.mk (joinSegs (normalizeSegs true (splitSlash p.data) []).reverse ++ ['/'])
        else String.mk (joinSegs (normalizeSegs true (splitSlash p.data) []).reverse) := by
  unfold normalize
  rw [hp]
  simp only [hc, decide_False, Bool.not_false, Bool.false_eq_true, if_false, decide_eq_true_eq]
  split <;> split <;> rfl

theorem join_plain_form (d s : String) (hd : d.data ≠ []) (hs : s.data ≠ [])
    (hrel : d.data.head? ≠ some '/') (hp : PlainRelative (join d s)) :
    (join d s).data
        = joinSegs (normalizeSegs true (splitSlash (d.data ++ '/' :: s.data)) []).reverse
      ∧ normalizeSegs true (splitSlash (d.data ++ '/' :: s.data)) [] ≠ []
      ∧ ['.', '.'] ∉ normalizeSegs true (splitSlash (d.data ++ '/' :: s.data)) [] := by
  obtain ⟨c0, tl, hdata⟩ : ∃ c0 tl, d.data = c0 :: tl := by
    cases h : d.data with
    | nil => exact absurd h hd
    | cons c0 tl => exact ⟨c0, tl, rfl⟩
  have hc : c0 ≠ '/' := by
    intro h
    apply hrel
    rw [hdata, h]; rfl
  have hfull : (d ++ "/" ++ s).data = c0 :: (tl ++ '/' :: s.data) := by
    rw [data_slash_append, hdata]; rfl
  have hval := normalize_relative (d ++ "/" ++ s) c0 _ hfull hc
  rw [← join_of_nonempty d s hd hs, data_slash_append] at hval
  generalize hN : normalizeSegs true (splitSlash (d.data ++ '/' :: s.data)) [] = N at hval ⊢
  have hslash : ∀ seg ∈ N, '/' ∉ seg := by
    intro seg hseg
    rw [← hN] at hseg
    rcases normalizeSegs_subset true _ [] seg hseg with h | h
    · exact splitSlash_no_slash _ seg h
    · cases h
  by_cases hempty : (joinSegs N.reverse).isEmpty = true
  · exfalso
    rw [if_pos hempty] at hval
    by_cases htrail : (d.data ++ '/' :: s.data).getLast? = some '/'
    · rw [if_pos htrail] at hval
      rw [hval] at hp
      exact absurd hp (by decide)
    · rw [if_neg htrail] at hval
      rw [hval] at hp
      exact absurd hp (by decide)
  · rw [if_neg hempty] at hval
    by_cases htrail : (d.data ++ '/' :: s.data).getLast? = some '/'
    · exfalso
      rw [if_pos htrail] at hval
      rw [hval] at hp
      have hmem : ([] : List Char) ∈ splitSlash (joinSegs N.reverse ++ ['/']) := by
        rw [splitSlash_append_slash]
        simp [splitSlash]
      exact (hp [] hmem).1 rfl
    · rw [if_neg htrail] at hval
      have hne : N ≠ [] := by
        intro h
        apply hempty
        rw [h]; rfl
      refine ⟨by rw [hval], hne, ?_⟩
      intro hmem
      rw [hval] at hp
      have hsplit : splitSlash (joinSegs N.reverse) = N.reverse :=
        splitSlash_joinSegs N.reverse (by simpa using hne)
          (fun seg hseg => hslash seg (List.mem_reverse.mp hseg))
      have := hp ['.', '.'] (by
        show ['.', '.'] ∈ splitSlash (joinSegs N.reverse)
        rw [hsplit]; exact List.mem_reverse.mpr hmem)
      exact this.2.2 rfl

theorem pathResolve_plain_form (cwd d s : String) (hdrel : d.data.head? ≠ some '/')
    (hsrel : s.data.head? ≠ some '/')
    (hup : ['.', '.'] ∉ normalizeSegs true (splitSlash (d.data ++ '/' :: s.data)) []) :
    pathResolve cwd d s
      = String.mk ('/' :: joinSegs ((normalizeSegs false (splitSlash cwd.data) []).reverse
          ++ (normalizeSegs true (splitSlash (d.data ++ '/' :: s.data)) []).reverse)) := by
  unfold pathResolve
  simp only [hsrel, hdrel, if_false]
  rw [data_slash_append, data_slash_append, splitSlash_append_slash, normalizeSegs_append]
  have h := normalizeSegs_below_root (splitSlash (d.data ++ '/' :: s.data)) []
    (normalizeSegs false (splitSlash cwd.data) []) hup
  rw [List.nil_append] at h
  rw [h, List.reverse_append]

/-- C15, counterexample.  With the process in `/proj`, the specifiers `./a.js`
and `../proj/a.js`, both written in a file of the directory `.`, denote the
same file `/proj/a.js`; `join` gives them the paths `a.js` and
`../proj/a.js`. -/
theorem same_file_two_paths :
    pathResolve "/proj" "." "./a.js" = "/proj/a.js"
      ∧ pathResolve "/proj" "." "../proj/a.js" = "/proj/a.js"
      ∧ join "." "./a.js" = "a.js"
      ∧ join "." "../proj/a.js" = "../proj/a.js"
      ∧ join "." "./a.js" ≠ join "." "../proj/a.js" := by
  decide

/-- C15, amended.  For relative, non-empty directories and specifiers whose
resolved paths are made of names only (they stay below the working directory),
two pairs that denote the same file, whatever the absolute working directory,
get the same path from `join`. -/
theorem join_same_file_same_path (cwd d1 s1 d2 s2 : String)
    (_hcwd : cwd.data.head? = some '/')
    (hd1 : d1.data ≠ []) (hs1 : s1.data ≠ []) (hd2 : d2.data ≠ []) (hs2 : s2.data ≠ [])
    (hdrel1 : d1.data.head? ≠ some '/') (hsrel1 : s1.data.head? ≠ some '/')
    (hdrel2 : d2.data.head? ≠ some '/') (hsrel2 : s2.data.head? ≠ some '/')
    (hp1 : PlainRelative (join d1 s1)) (hp2 : PlainRelative (join d2 s2))
    (hsame : pathResolve cwd d1 s1 = pathResolve cwd d2 s2) :
    join d1 s1 = join d2 s2 := by
  obtain ⟨hj1, hne1, hup1⟩ := join_plain_form d1 s1 hd1 hs1 hdrel1 hp1
  obtain ⟨hj2, hne2, hup2⟩ := join_plain_form d2 s2 hd2 hs2 hdrel2 hp2
  rw [pathResolve_plain_form cwd d1 s1 hdrel1 hsrel1 hup1,
    pathResolve_plain_form cwd d2 s2 hdrel2 hsrel2 hup2] at hsame
  have hslash : ∀ (b : Bool) (x : List Char), ∀ seg ∈ normalizeSegs b (splitSlash x) [],
      '/' ∉ seg := by
    intro b x seg hseg
    rcases normalizeSegs_subset b _ [] seg hseg with h | h
    · exact splitSlash_no_slash _ seg h
    · cases h
  have hdata := congrArg String.data hsame
  simp only [List.cons.injEq, true_and] at hdata
  have hsplit := congrArg splitSlash hdata
  rw [splitSlash_joinSegs _ (by simpa using fun _ => hne1), splitSlash_joinSegs _
    (by simpa using fun _ => hne2)] at hsplit
  · have hrev := List.append_cancel_left hsplit
    apply String.ext
    rw [hj1, hj2, hrev]
  · intro seg hseg
    rcases List.mem_append.mp hseg with h | h
    · exact hslash false _ seg (List.mem_reverse.mp h)
    · exact hslash true _ seg (List.mem_reverse.mp h)
  · intro seg hseg
    rcases List.mem_append.mp hseg with h | h
    · exact hslash false _ seg (List.mem_reverse.mp h)
    · exact hslash true _ seg (List.mem_reverse.mp h)

/-- C15, the amended statement at the three pairs of the claim, the process in
`/proj`: `./math/add.js` from `.`, `./add.js` from `math` and `../math/add.js`
from `tools` denote `/proj/math/add.js` and resolve to `math/add.js`. -/
theorem join_same_file_same_path_witness :
    join "." "./math/add.js" = join "math" "./add.js"
      ∧ join "math" "./add.js" = join "tools" "../math/add.js"
      ∧ join "." "./math/add.js" = "math/add.js"
      ∧ pathResolve "/proj" "." "./math/add.js" = "/proj/math/add.js" :=
  ⟨join_same_file_same_path "/proj" "." "./math/add.js" "math" "./add.js" (by decide)
      (by decide) (by decide) (by decide) (by decide) (by decide) (by decide) (by decide)
      (by decide) (by decide) (by decide) (by decide),
    join_same_file_same_path "/proj" "math" "./add.js" "tools" "../math/add.js" (by decide)
      (by decide) (by decide) (by decide) (by decide) (by decide) (by decide) (by decide)
      (by decide) (by decide) (by decide) (by decide),
    by decide, by decide⟩

/-! ## C17: the specifiers are keys -/

theorem renderEntry_literal (e : Entry) :
    (renderEntry e).data = ("'" ++ e.key ++ "'").data ++ (": " ++ e.module.code ++ ",").data := by
  have h1 : ("': " : String) = "'" ++ ": " := by decide
  rw [← String.data_append]
  simp only [renderEntry, h1, String.append_assoc]

theorem parsedKey_plain (e : Entry)
    (h : ∀ c ∈ e.key.data, c ≠ quoteChar ∧ c ≠ backslashChar ∧ c ∉ lineTerminators) :
    parsedKey e = some e.key := by
  unfold parsedKey
  rw [renderEntry_literal, readSingleQuoted_plain e.key _ h]
  simp

theorem parsedEntries_plain (entries : List Entry)
    (h : ∀ e ∈ entries, ∀ c ∈ e.key.data,
      c ≠ quoteChar ∧ c ≠ backslashChar ∧ c ∉ lineTerminators) :
    parsedEntries entries = some (entries.map (fun e => (e.key, e.module))) := by
  induction entries with
  | nil => rfl
  | cons e es ih =>
    simp only [parsedEntries, parsedKey_plain e (h e (List.mem_cons_self _ _)),
      ih (fun e1 he1 => h e1 (List.mem_cons_of_mem _ he1)), List.map_cons]

theorem ownProperties_plain (entries : List Entry) (h : ∀ k ∈ keysOf entries, PlainKey k) :
    ownProperties entries = some (entries.map (fun e => (e.key, e.module))) := by
  have hchars : ∀ e ∈ entries, ∀ c ∈ e.key.data,
      c ≠ quoteChar ∧ c ≠ backslashChar ∧ c ∉ lineTerminators :=
    fun e he => (h e.key (List.mem_map.mpr ⟨e, he, rfl⟩)).1
  have hkeys : (entries.map (fun e => (e.key, e.module))).map Prod.fst = keysOf entries := by
    simp [keysOf, List.map_map, Function.comp_def]
  have hproto : "__proto__" ∉ keysOf entries := fun hmem => (h _ hmem).2 rfl
  unfold ownProperties
  rw [parsedEntries_plain entries hchars]
  simp only [hkeys, List.count_eq_zero_of_not_mem hproto, Nat.not_lt_zero, if_false,
    Option.some.injEq]
  apply List.filter_eq_self.mpr
  intro kv hkv
  obtain ⟨e, he, rfl⟩ := List.mem_map.mp hkv
  have hne : e.key ≠ "__proto__" := (h e.key (List.mem_map.mpr ⟨e, he, rfl⟩)).2
  simpa using hne

/-- C17, counterexample.  `index.js` imports `./a\b.js`.  `genBundle` returns
an artifact; the specifier is written between the quotes as it is, and the
engine reads the backslash and the `b` after it as a backspace: the table it
reads has the property names `./index.js` and `./a<BS>.js`, the specifier
`./a\b.js` is not among them and looking it up finds nothing. -/
theorem escaped_specifier_is_no_key :
    genBundle (nodeEnv escapeFiles) 2 "./index.js"
        = some (.ok (bundleText "./index.js" (renderEntries escapeEntries)))
      ∧ (traverseBundle (nodeEnv escapeFiles) 2 "./index.js").result = some (.ok escapeEntries)
      ∧ (⟨"./index.js", escapeIndex⟩ : Entry) ∈ escapeEntries
      ∧ "./a\\b.js" ∈ escapeIndex.dependencies
      ∧ keysOf escapeEntries = ["./index.js", "./a\\b.js"]
      ∧ ownProperties escapeEntries = some [("./index.js", escapeIndex), ("./a\x08.js", escapeDep)]
      ∧ lookupParsed escapeEntries "./a\\b.js" = none := by
  refine ⟨?_, rfl, by decide, by decide, rfl, by decide, by decide⟩
  rw [genBundle_eq_render]; rfl

/-- C17, amended.  Whenever `genBundle` returns an artifact all of whose keys
are plain (no single quote, backslash or line terminator, and not `__proto__`),
the table the engine reads has the keys as written, and every dependency
specifier declared by a module of the table is, as the raw string, one of
them: looking it up finds an entry, and so does `modules[s]` in every runtime
over these properties, whatever the factories mean. -/
theorem specifiers_are_keys (env : Env) (fuel : Nat) (entryPath artifact : String)
    (entries : List Entry)
    (h : genBundle env fuel entryPath = some (.ok artifact))
    (hrun : (traverseBundle env fuel entryPath).result = some (.ok entries))
    (hplain : ∀ k ∈ keysOf entries, PlainKey k) :
    artifact = bundleText entryPath (renderEntries entries)
      ∧ ownProperties entries = some (entries.map (fun e => (e.key, e.module)))
      ∧ ∀ e ∈ entries, ∀ s ∈ e.module.dependencies,
          s ∈ keysOf entries
            ∧ (lookupParsed entries s).isSome = true
            ∧ ∀ (meaning : Module → Factory) (inherited : String → Option Factory)
                (table : List (String × Module)), ownProperties entries = some table →
                (Runtime.lookup ⟨table.map (fun kv => (kv.1, meaning kv.2)), inherited⟩
                  s).isSome = true := by
  obtain ⟨m, rest, _, hrun1, hart, inv⟩ := genBundle_inv env fuel entryPath artifact h
  rw [hrun1] at hrun
  simp only [Option.some.injEq, Except.ok.injEq] at hrun
  subst hrun
  have hown := ownProperties_plain _ hplain
  refine ⟨hart, hown, ?_⟩
  intro e he s hs
  obtain ⟨e1, he1, hk, _⟩ := inv.closed e he s hs
  have hmem : s ∈ keysOf (⟨entryPath, m⟩ :: rest) := by
    rw [← hk]
    exact List.mem_map.mpr ⟨e1, List.mem_cons_of_mem _ he1, rfl⟩
  refine ⟨hmem, ?_, ?_⟩
  · unfold lookupParsed
    rw [hown]
    exact (lookupModule_isSome _ _).mpr hmem
  · intro meaning inherited table htable
    rw [hown] at htable
    simp only [Option.some.injEq] at htable
    subst htable
    have hsome : (ownProperty (((⟨entryPath, m⟩ :: rest : List Entry).map
        (fun e => (e.key, e.module))).map (fun kv => (kv.1, meaning kv.2))) s).isSome = true := by
      rw [ownProperty_isSome]
      simpa [keysOf, List.map_map, Function.comp_def] using hmem
    unfold Runtime.lookup
    cases hl : ownProperty (((⟨entryPath, m⟩ :: rest : List Entry).map
        (fun e => (e.key, e.module))).map (fun kv => (kv.1, meaning kv.2))) s with
    | some f => rfl
    | none => rw [hl] at hsome; cases hsome

/-- C17, the amended statement at the diamond tree, whose five keys are
plain. -/
theorem specifiers_are_keys_witness :
    diamondArtifact = bundleText "./index.js" (renderEntries diamondEntries)
      ∧ ownProperties diamondEntries = some (diamondEntries.map (fun e => (e.key, e.module)))
      ∧ ∀ e ∈ diamondEntries, ∀ s ∈ e.module.dependencies,
          s ∈ keysOf diamondEntries
            ∧ (lookupParsed diamondEntries s).isSome = true
            ∧ ∀ (meaning : Module → Factory) (inherited : String → Option Factory)
                (table : List (String × Module)), ownProperties diamondEntries = some table →
                (Runtime.lookup ⟨table.map (fun kv => (kv.1, meaning kv.2)), inherited⟩
                  s).isSome = true :=
  specifiers_are_keys (nodeEnv diamondFiles) 3 "./index.js" diamondArtifact diamondEntries
    diamond_bundle rfl (by decide)

end Webpack
